import Mathlib

/-!
Verification of the MiniAIG structural model and the SAT-attack controller of
the moosic-yosys-plugin repository, against its natural-language specification.

The embedding follows `src/mini_aig.hpp`, `src/mini_aig.cpp` and
`src/sat_attack.cpp`.  Machine words (`uint64_t`) are modelled as `Nat`; the
bitwise complement of a word is written as xor with `ones64`.  C++ `int`
counters are modelled as `Int` where signedness matters and as `Nat` where the
code only ever counts upward from zero.  `double` error rates are modelled as
exact rationals.  The SAT solver (ezMiniSAT) is an external black box; its two
queries are modelled as abstract functions, constrained only by the soundness
property that the CNF constraints of `forceKeyCorrect` impose on any key the
solver can return.
-/

namespace Moosic

/-- Mask of 64 one bits, the all-ones `uint64_t` word. -/
def ones64 : Nat := 2 ^ 64 - 1

/-- A literal of the AIG (mini_aig.hpp, `struct Lit`): the least significant
bit of `data` is the polarity, the variable index is in the remaining bits. -/
structure Lit where
  data : Nat
  deriving DecidableEq, Repr

/-- Variable index of a literal (`Lit::variable`, `data >> 1`). -/
def Lit.var (a : Lit) : Nat := a.data >>> 1

/-- Polarity of a literal (`Lit::polarity`, `data & 1`). -/
def Lit.polarity (a : Lit) : Bool := a.data &&& 1 == 1

/-- Inverted literal (`Lit::inv`, `data ^ 1`). -/
def Lit.inv (a : Lit) : Lit := ⟨a.data ^^^ 1⟩

/-- Constant-false literal (`Lit::zero`). -/
def Lit.zero : Lit := ⟨0⟩

/-- Constant-true literal (`Lit::one`). -/
def Lit.one : Lit := ⟨1⟩

/-- Whether the literal refers to the reserved constant variable
(`Lit::is_constant`). -/
def Lit.isConstant (a : Lit) : Bool := a.var == 0

/-- An AND node of the AIG, holding its two fanin literals
(mini_aig.hpp, `struct AIGNode`). -/
structure AIGNode where
  a : Lit
  b : Lit
  deriving DecidableEq, Repr

instance : Inhabited AIGNode := ⟨⟨Lit.zero, Lit.zero⟩⟩

/-- The MiniAIG simulation network (mini_aig.hpp, `class MiniAIG`).  The
fields `fanouts`, `isTouched`, `touchedVars`, `toVisit` and `savedState`
belong to the incremental-simulation machinery.  Modelled from the spec:
the class declaration of the incremental members is not part of the sources
under src/ (only their uses in mini_aig.cpp are); per the spec, `toVisit` is
a worklist ordered by ascending node index, here a strictly ascending sorted
list, and `savedState` is the snapshot taken by `copyIncrementalState`. -/
structure MiniAIG where
  nodes : List AIGNode
  outputs : List Lit
  nbInputs : Nat
  state : List Nat
  fanouts : List (List Nat)
  isTouched : List Bool
  touchedVars : List Nat
  toVisit : List Nat
  savedState : List Nat
  deriving DecidableEq, Repr

/-- Freshly constructed MiniAIG (`MiniAIG::MiniAIG(int nbInputs)`):
no nodes, no outputs, state sized `nbInputs + 1` and zero-initialised. -/
def MiniAIG.mk0 (nbInputs : Nat) : MiniAIG :=
  { nodes := [], outputs := [], nbInputs := nbInputs,
    state := List.replicate (nbInputs + 1) 0,
    fanouts := [], isTouched := [], touchedVars := [], toVisit := [],
    savedState := [] }

/-- Literal for an input (`MiniAIG::getInput`, `Lit((input + 1) << 1)`). -/
def MiniAIG.getInput (_ : MiniAIG) (input : Nat) : Lit := ⟨(input + 1) <<< 1⟩

/-- Mark a literal as an output (`MiniAIG::addOutput`). -/
def MiniAIG.addOutput (g : MiniAIG) (lit : Lit) : MiniAIG :=
  { g with outputs := g.outputs ++ [lit] }

/-- Create a new AND gate and return its literal (`MiniAIG::addAnd`):
the new node's variable index is `nodes.size() + nbInputs + 1`, one state
word is appended. -/
def MiniAIG.addAnd (g : MiniAIG) (a b : Lit) : Lit × MiniAIG :=
  (⟨(g.nodes.length + g.nbInputs + 1) <<< 1⟩,
   { g with nodes := g.nodes ++ [⟨a, b⟩], state := g.state ++ [0] })

/-- NAND builder (`MiniAIG::addNand`, `addAnd(a, b).inv()`). -/
def MiniAIG.addNand (g : MiniAIG) (a b : Lit) : Lit × MiniAIG :=
  let r := g.addAnd a b
  (r.1.inv, r.2)

/-- NOR builder (`MiniAIG::addNor`, `addAnd(a.inv(), b.inv())`). -/
def MiniAIG.addNor (g : MiniAIG) (a b : Lit) : Lit × MiniAIG :=
  g.addAnd a.inv b.inv

/-- OR builder (`MiniAIG::addOr`, `addNor(a, b).inv()`). -/
def MiniAIG.addOr (g : MiniAIG) (a b : Lit) : Lit × MiniAIG :=
  let r := g.addNor a b
  (r.1.inv, r.2)

/-- XOR builder (`MiniAIG::addXor`,
`addOr(addAnd(a, b.inv()), addAnd(a.inv(), b))`). -/
def MiniAIG.addXor (g : MiniAIG) (a b : Lit) : Lit × MiniAIG :=
  let r1 := g.addAnd a b.inv
  let r2 := r1.2.addAnd a.inv b
  r2.2.addOr r1.1 r2.1

/-- XNOR builder (`MiniAIG::addXnor`, `addXor(a, b).inv()`). -/
def MiniAIG.addXnor (g : MiniAIG) (a b : Lit) : Lit × MiniAIG :=
  let r := g.addXor a b
  (r.1.inv, r.2)

/-- MUX builder (`MiniAIG::addMux`,
`addOr(addAnd(s.inv(), a), addAnd(s, b))`). -/
def MiniAIG.addMux (g : MiniAIG) (s a b : Lit) : Lit × MiniAIG :=
  let r1 := g.addAnd s.inv a
  let r2 := r1.2.addAnd s b
  r2.2.addOr r1.1 r2.1

/-- Non-synonymous buffer (`MiniAIG::addBuffer`, `addAnd(a, a)`). -/
def MiniAIG.addBuffer (g : MiniAIG) (a : Lit) : Lit × MiniAIG :=
  g.addAnd a a

/-- Non-synonymous not as written in mini_aig.hpp (`MiniAIG::addNot`,
`addAnd(a, a)` with no inversion). -/
def MiniAIG.addNot (g : MiniAIG) (a : Lit) : Lit × MiniAIG :=
  g.addAnd a a

/-- Value of a literal over a state array (`MiniAIG::getValue`): the state
word of the variable, xored with an all-ones mask when the polarity bit is
set. -/
def litValue (st : List Nat) (a : Lit) : Nat :=
  st.getD a.var 0 ^^^ (if a.polarity then ones64 else 0)

/-- Values of the declared outputs over a state array
(`MiniAIG::getOutputValues`). -/
def getOutputValues (st : List Nat) (outs : List Lit) : List Nat :=
  outs.map (litValue st)

/-- Values of the declared outputs in the current simulation state. -/
def MiniAIG.getOutputValues (g : MiniAIG) : List Nat :=
  Moosic.getOutputValues g.state g.outputs

/-- Input-writing loop of `MiniAIG::simulate`
(`state_[i + 1] = inputVals[i]`), with `k` the number of inputs already
written. -/
def writeInputs : List Nat → Nat → List Nat → List Nat
  | [], _, st => st
  | v :: rest, k, st => writeInputs rest (k + 1) (st.set (k + 1) v)

/-- Node loop of `MiniAIG::simulate`
(`state_[i + nbInputs_ + 1] = getValue(a) & getValue(b)`), with `j` the
index of the next node. -/
def simNodes (nbI : Nat) : List AIGNode → Nat → List Nat → List Nat
  | [], _, st => st
  | n :: rest, j, st =>
      simNodes nbI rest (j + 1) (st.set (j + nbI + 1) (litValue st n.a &&& litValue st n.b))

/-- Batch 64-lane word-parallel simulation (`MiniAIG::simulate`,
mini_aig.cpp): reset the constant word, write the input words, recompute
every node in index order, read the outputs. -/
def MiniAIG.simulate (g : MiniAIG) (inputVals : List Nat) : List Nat × MiniAIG :=
  let st := simNodes g.nbInputs g.nodes 0 (writeInputs inputVals 0 (g.state.set 0 0))
  (Moosic.getOutputValues st g.outputs, { g with state := st })

/-- Input-writing loop of `MiniAIG::simulateWithToggling`
(`state_[i + 1] = t ^ inputVals[i]` with `t` the all-ones mask of toggled
variables). -/
def writeInputsToggled (tset : List Nat) : List Nat → Nat → List Nat → List Nat
  | [], _, st => st
  | v :: rest, k, st =>
      writeInputsToggled tset rest (k + 1)
        (st.set (k + 1) ((if (k + 1) ∈ tset then ones64 else 0) ^^^ v))

/-- Node loop of `MiniAIG::simulateWithToggling`
(`state_[i + nbInputs_ + 1] = t ^ (getValue(a) & getValue(b))`). -/
def simNodesToggled (nbI : Nat) (tset : List Nat) : List AIGNode → Nat → List Nat → List Nat
  | [], _, st => st
  | n :: rest, j, st =>
      simNodesToggled nbI tset rest (j + 1)
        (st.set (j + nbI + 1)
          ((if (j + nbI + 1) ∈ tset then ones64 else 0) ^^^ (litValue st n.a &&& litValue st n.b)))

/-- Batch simulation with a set of toggled variables
(`MiniAIG::simulateWithToggling`, mini_aig.cpp): every toggled variable has
its recomputed word xored with all-ones.  The constant word at index 0 is
not rewritten by this function. -/
def MiniAIG.simulateWithToggling (g : MiniAIG) (inputVals : List Nat) (toggling : List Lit) :
    List Nat × MiniAIG :=
  let tset := toggling.map Lit.var
  let st := simNodesToggled g.nbInputs tset g.nodes 0
    (writeInputsToggled tset inputVals 0 g.state)
  (Moosic.getOutputValues st g.outputs, { g with state := st })

/-- Ordered insertion into the ascending worklist.  Modelled from the spec:
the C++ member is a min-priority queue, i.e. a worklist ordered by ascending
node index; inserting an element already present leaves the list unchanged,
which never happens in the algorithm (only untouched variables are pushed). -/
def insertAsc (n : Nat) : List Nat → List Nat
  | [] => [n]
  | m :: rest =>
      if n < m then n :: m :: rest
      else if n = m then m :: rest
      else m :: insertAsc n rest

/-- Fanout-pushing loop of `MiniAIG::updateState`: every fanout of the
changed variable that is not yet touched is marked touched and pushed onto
the worklist. -/
def pushFanouts : List Nat → MiniAIG → MiniAIG
  | [], g => g
  | n :: rest, g =>
      pushFanouts rest
        (if g.isTouched.getD n false then g
         else { g with isTouched := g.isTouched.set n true,
                       touchedVars := g.touchedVars ++ [n],
                       toVisit := insertAsc n g.toVisit })

/-- Update one variable's word during incremental simulation
(`MiniAIG::updateState`, mini_aig.cpp): mark the variable touched, and if
the value actually changed, store it and push its untouched fanouts. -/
def MiniAIG.updateState (g : MiniAIG) (i : Nat) (value : Nat) : MiniAIG :=
  let g1 := if g.isTouched.getD i false then g
            else { g with isTouched := g.isTouched.set i true,
                          touchedVars := g.touchedVars ++ [i] }
  if g1.state.getD i 0 = value then g1
  else pushFanouts (g1.fanouts.getD i []) { g1 with state := g1.state.set i value }

/-- Worklist loop of `MiniAIG::simulateIncremental`: pop the smallest
pending variable and recompute its node from the current state.  The C++
`while (!toVisit_.empty())` loop is modelled with fuel; the fuel chosen in
`simulateIncremental` is proven sufficient for every reachable state. -/
def incLoop : Nat → MiniAIG → MiniAIG
  | 0, g => g
  | fuel + 1, g =>
      match g.toVisit with
      | [] => g
      | i :: rest =>
          let n := g.nodes.getD (i - g.nbInputs - 1) default
          incLoop fuel
            (MiniAIG.updateState { g with toVisit := rest } i
              (litValue g.state n.a &&& litValue g.state n.b))

/-- Restoration loop of `MiniAIG::resetIncrementalState`: every touched
variable is unmarked and its word restored from the snapshot. -/
def resetLoop : List Nat → MiniAIG → MiniAIG
  | [], g => g
  | i :: rest, g =>
      resetLoop rest
        { g with isTouched := g.isTouched.set i false,
                 state := g.state.set i (g.savedState.getD i 0) }

/-- Restore the saved baseline after an incremental probe
(`MiniAIG::resetIncrementalState`, mini_aig.cpp). -/
def MiniAIG.resetIncrementalState (g : MiniAIG) : MiniAIG :=
  { resetLoop g.touchedVars g with touchedVars := [] }

/-- Incremental single-toggle simulation (`MiniAIG::simulateIncremental`,
mini_aig.cpp): flip the toggled variable's word, propagate through the
fanouts in ascending variable order, read the outputs, then restore the
baseline. -/
def MiniAIG.simulateIncremental (g : MiniAIG) (toggling : Lit) : List Nat × MiniAIG :=
  let g1 := g.updateState toggling.var (g.state.getD toggling.var 0 ^^^ ones64)
  let g2 := incLoop (2 * g1.state.length + 2) g1
  (g2.getOutputValues, g2.resetIncrementalState)

/-- Append one fanout entry (`fanouts_[var].push_back(i)`). -/
def addFanout (fo : List (List Nat)) (v i : Nat) : List (List Nat) :=
  fo.set v (fo.getD v [] ++ [i])

/-- Fanout-list construction loop of `MiniAIG::setupIncremental`: node
`idx` (variable `idx + nbInputs + 1`) is appended to the fanout lists of
both of its fanin variables. -/
def buildFanouts (nbI : Nat) : List AIGNode → Nat → List (List Nat) → List (List Nat)
  | [], _, fo => fo
  | n :: rest, idx, fo =>
      buildFanouts nbI rest (idx + 1)
        (addFanout (addFanout fo n.a.var (idx + nbI + 1)) n.b.var (idx + nbI + 1))

/-- Resize of a boolean vector with `false` fill
(`std::vector<bool>::resize(n, false)`). -/
def resizeFalse (l : List Bool) (n : Nat) : List Bool :=
  l.take n ++ List.replicate (n - l.length) false

/-- Prepare the incremental machinery (`MiniAIG::setupIncremental`,
mini_aig.cpp): build the fanout lists, size the touched flags, clear the
touched list. -/
def MiniAIG.setupIncremental (g : MiniAIG) : MiniAIG :=
  { g with
    fanouts := buildFanouts g.nbInputs g.nodes 0
      (List.replicate (g.nbInputs + g.nodes.length + 1) []),
    isTouched := resizeFalse g.isTouched (g.nbInputs + g.nodes.length + 1),
    touchedVars := [] }

/-- Snapshot the current state as the incremental baseline.  Modelled from
the spec: `copyIncrementalState` is declared in the class header, which is
not part of the sources under src/; per the spec it snapshots the current
state before probes. -/
def MiniAIG.copyIncrementalState (g : MiniAIG) : MiniAIG :=
  { g with savedState := g.state }

/-- Topological well-formedness of the node array: both fanin literals of
every node reference variables with strictly smaller index
(the invariant asserted by `MiniAIG::check`). -/
def TopoOk (nbI : Nat) (nodes : List AIGNode) : Prop :=
  ∀ j, j < nodes.length →
    (nodes.getD j default).a.var < j + nbI + 1 ∧ (nodes.getD j default).b.var < j + nbI + 1

instance (nbI : Nat) (nodes : List AIGNode) : Decidable (TopoOk nbI nodes) :=
  Nat.decidableBallLT nodes.length fun j _ =>
    (nodes.getD j default).a.var < j + nbI + 1 ∧ (nodes.getD j default).b.var < j + nbI + 1

/-- Structural assertions of `MiniAIG::check` (mini_aig.cpp) that concern
the node array alone: the state array has size `nodes + nbInputs + 1`,
every fanin variable is within the state array, and the node array is
topologically sorted. -/
def MiniAIG.checkTopoPart (g : MiniAIG) : Bool :=
  (g.state.length == g.nodes.length + g.nbInputs + 1) &&
  g.nodes.all (fun n =>
    decide (n.a.var < g.state.length) && decide (n.b.var < g.state.length)) &&
  (List.range g.nodes.length).all (fun j =>
    decide ((g.nodes.getD j default).a.var < j + g.nbInputs + 1) &&
    decide ((g.nodes.getD j default).b.var < j + g.nbInputs + 1))

/-- AIGs reachable through the public construction interface: a fresh
`MiniAIG(n)` and chains of `addAnd` (hence all derived gate builders) whose
fanin literals refer to existing variables, plus `addOutput`. -/
inductive Built : MiniAIG → Prop
  | init (n : Nat) : Built (MiniAIG.mk0 n)
  | and {g : MiniAIG} (a b : Lit) : Built g →
      a.var < g.nbInputs + g.nodes.length + 1 →
      b.var < g.nbInputs + g.nodes.length + 1 →
      Built (g.addAnd a b).2
  | out {g : MiniAIG} (l : Lit) : Built g → Built (g.addOutput l)

/-! Embedding of the SAT-attack controller, src/sat_attack.cpp.

The circuit under attack appears through two functions:
`design inputs key` stands for `SatAttack::callDesign` and
`oracle inputs` for `SatAttack::callOracle`.  The ezMiniSAT queries are
abstract functions of the current test-vector store (`solveKey` for
`findNewValidKey`, `solveDI`/`findDI` for the distinguishing-input
queries); a fresh solver instance is built per call in the C++ code, so a
query's outcome depends only on the constraints of the moment.  The random
generator is threaded as an explicit stream of input vectors. -/

/-- Mutable attack state of `SatAttack`: the accumulated test vectors
(`testInputs_`, `testOutputs_`), the current best key and the success
flag. -/
structure AttackState where
  testInputs : List (List Bool)
  testOutputs : List (List Bool)
  bestKey : List Bool
  keyFound : Bool
  deriving DecidableEq, Repr

/-- Check a key against every stored test vector
(`SatAttack::keyPassesTests`). -/
def keyPassesTests (design : List Bool → List Bool → List Bool)
    (s : AttackState) (key : List Bool) : Bool :=
  (s.testInputs.zip s.testOutputs).all fun p => design p.1 key == p.2

/-- Append one test vector, with outputs obtained from the oracle
(`SatAttack::addTestVector`). -/
def addTestVector (oracle : List Bool → List Bool)
    (s : AttackState) (inputs : List Bool) : AttackState :=
  { s with testInputs := s.testInputs ++ [inputs],
           testOutputs := s.testOutputs ++ [oracle inputs] }

/-- Generate the initial test vectors from the random stream
(the `genTestVector` loop of `SatAttack::runPrologue`). -/
def genVectors (oracle : List Bool → List Bool) (randStream : Nat → List Bool)
    (n : Nat) (s : AttackState) : AttackState :=
  (List.range n).foldl (fun st i => addTestVector oracle st (randStream i)) s

/-- Fatal error outcomes of the attack model.  `expectedKeyFails` is the
`log_error` of `runPrologue`, `postCheckFails` the `log_error` of `runSat`
after success; `fuelExhausted` marks exhaustion of the termination fuel of
the model and corresponds to no code path. -/
inductive SatError
  | expectedKeyFails
  | postCheckFails
  | fuelExhausted
  deriving DecidableEq, Repr

/-- Initialisation phase (`SatAttack::runPrologue`): clear the store,
collect the initial vectors, check that the expected key passes them
(fatal otherwise), then search a first candidate key.  Returns `false`
when no candidate key exists. -/
def runPrologue (design : List Bool → List Bool → List Bool)
    (oracle : List Bool → List Bool) (randStream : Nat → List Bool)
    (solveKey : AttackState → Option (List Bool))
    (expectedKey : List Bool) (nbInitialVectors : Nat) (s : AttackState) :
    Except SatError (Bool × AttackState) :=
  let s1 := genVectors oracle randStream nbInitialVectors
    { s with testInputs := [], testOutputs := [] }
  if keyPassesTests design s1 expectedKey = false then .error .expectedKeyFails
  else
    let s2 := { s1 with keyFound := false, bestKey := [] }
    match solveKey s2 with
    | none => .ok (false, s2)
    | some k => .ok (true, { s2 with bestKey := k })

/-- Main loop of `SatAttack::runSat`: find a distinguishing input against
the best key; when none exists the key is proven, otherwise append the
oracle's answer as a test vector and search a new consistent key. -/
def runSatLoop (oracle : List Bool → List Bool)
    (solveDI : AttackState → Option (List Bool × List Bool))
    (solveKey : AttackState → Option (List Bool)) :
    Nat → AttackState → Except SatError AttackState
  | 0, _ => .error .fuelExhausted
  | fuel + 1, s =>
      match solveDI s with
      | none => .ok { s with keyFound := true }
      | some (candidateInputs, _candidateKey) =>
          let s1 := addTestVector oracle s candidateInputs
          match solveKey s1 with
          | none => .ok { s1 with bestKey := [] }
          | some k => runSatLoop oracle solveDI solveKey fuel { s1 with bestKey := k }

/-- Exact SAT attack (`SatAttack::runSat`): prologue, refinement loop, and
the defensive re-validation of the found key, whose failure is the fatal
`postCheckFails`. -/
def runSat (design : List Bool → List Bool → List Bool)
    (oracle : List Bool → List Bool) (randStream : Nat → List Bool)
    (solveDI : AttackState → Option (List Bool × List Bool))
    (solveKey : AttackState → Option (List Bool))
    (expectedKey : List Bool) (nbInitialVectors : Nat) (fuel : Nat)
    (s : AttackState) : Except SatError AttackState :=
  match runPrologue design oracle randStream solveKey expectedKey nbInitialVectors s with
  | .error e => .error e
  | .ok (false, s1) => .ok s1
  | .ok (true, s1) =>
      match runSatLoop oracle solveDI solveKey fuel s1 with
      | .error e => .error e
      | .ok s2 =>
          if s2.keyFound then
            if keyPassesTests design s2 s2.bestKey then .ok s2
            else .error .postCheckFails
          else .ok s2

/-- Sampling loop of `SatAttack::measureErrorAndConstrain`: every mismatch
between the design under the best key and the oracle counts as an error,
and is appended to the store as long as at most `maxConstraints` vectors
have been appended. -/
def measureLoop (design : List Bool → List Bool → List Bool)
    (oracle : List Bool → List Bool) (bestKey : List Bool) (maxConstraints : Int) :
    List (List Bool) → Int → AttackState → Int × AttackState
  | [], nbErrors, s => (nbErrors, s)
  | inputs :: rest, nbErrors, s =>
      let expected := oracle inputs
      let outputs := design inputs bestKey
      if outputs ≠ expected then
        let nbErrors1 := nbErrors + 1
        let s1 := if nbErrors1 ≤ maxConstraints then
            { s with testInputs := s.testInputs ++ [inputs],
                     testOutputs := s.testOutputs ++ [expected] }
          else s
        measureLoop design oracle bestKey maxConstraints rest nbErrors1 s1
      else measureLoop design oracle bestKey maxConstraints rest nbErrors s

/-- Error measurement of AppSAT (`SatAttack::measureErrorAndConstrain`):
draw `nbRandomVectors` fresh random vectors, count mismatches, append at
most `maxConstraints` of them as test vectors, and return the empirical
error rate (zero when `nbRandomVectors <= 0`, before any division). -/
def measureErrorAndConstrain (design : List Bool → List Bool → List Bool)
    (oracle : List Bool → List Bool) (randStream : Nat → List Bool)
    (s : AttackState) (nbRandomVectors maxConstraints : Int) : ℚ × AttackState :=
  let samples := (List.range nbRandomVectors.toNat).map randStream
  let r := measureLoop design oracle s.bestKey maxConstraints samples 0 s
  let epsilon : ℚ := if nbRandomVectors ≤ 0 then 0 else (r.1 : ℚ) / (nbRandomVectors : ℚ)
  (epsilon, r.2)

/-- Loop state of `SatAttack::runAppSat`: the attack state plus the
`queryCount` and `settleCount` counters. -/
structure AppSatState where
  attack : AttackState
  queryCount : Int
  settleCount : Int
  deriving DecidableEq, Repr

/-- Outcome of the AppSAT loop, carrying a ghost log of the measurement
rounds as (queryCount at measurement, measured error) pairs.
`unsatExit` is the `findDI`-failed exit, `measurementExit` the
convergence exit of the error-measurement path. -/
inductive AppSatResult
  | unsatExit (final : AttackState) (log : List (Int × ℚ))
  | measurementExit (final : AttackState) (log : List (Int × ℚ))
  | fuelExhausted
  deriving DecidableEq, Repr

/-- Main loop of `SatAttack::runAppSat`: find a distinguishing input
between two consistent keys, adopt the first key, append the oracle answer;
every `nbDIQueries` rounds measure the empirical error (capping the new
constraints at the current store size) and stop once `settleCount` reaches
`settleThreshold`; a measurement at or above the threshold resets
`settleCount` to zero.  `rand m` is the random stream of measurement round
`m`. -/
def runAppSatLoop (design : List Bool → List Bool → List Bool)
    (oracle : List Bool → List Bool)
    (findDI : AttackState → Option (List Bool × List Bool × List Bool))
    (rand : Nat → Nat → List Bool)
    (errorThreshold : ℚ) (nbDIQueries nbRandomVectors settleThreshold : Int) :
    Nat → AppSatState → List (Int × ℚ) → AppSatResult
  | 0, _, _ => .fuelExhausted
  | fuel + 1, st, log =>
      match findDI st.attack with
      | none => .unsatExit { st.attack with keyFound := true } log
      | some (inputs, key1, _key2) =>
          let a1 := addTestVector oracle { st.attack with bestKey := key1 } inputs
          let q1 := st.queryCount + 1
          if q1 % nbDIQueries ≠ 0 then
            runAppSatLoop design oracle findDI rand errorThreshold nbDIQueries
              nbRandomVectors settleThreshold fuel
              { attack := a1, queryCount := q1, settleCount := st.settleCount } log
          else
            let r := measureErrorAndConstrain design oracle (rand log.length) a1
              nbRandomVectors (a1.testInputs.length : Int)
            let log1 := log ++ [(q1, r.1)]
            if r.1 < errorThreshold then
              if settleThreshold ≤ st.settleCount + 1 then
                .measurementExit { r.2 with keyFound := true } log1
              else
                runAppSatLoop design oracle findDI rand errorThreshold nbDIQueries
                  nbRandomVectors settleThreshold fuel
                  { attack := r.2, queryCount := q1, settleCount := st.settleCount + 1 } log1
            else
              runAppSatLoop design oracle findDI rand errorThreshold nbDIQueries
                nbRandomVectors settleThreshold fuel
                { attack := r.2, queryCount := q1, settleCount := 0 } log1

/-- Approximate SAT attack (`SatAttack::runAppSat`): prologue, then the
DI/measurement loop starting with both counters at zero. -/
def runAppSat (design : List Bool → List Bool → List Bool)
    (oracle : List Bool → List Bool) (randStream : Nat → List Bool)
    (findDI : AttackState → Option (List Bool × List Bool × List Bool))
    (solveKey : AttackState → Option (List Bool)) (rand : Nat → Nat → List Bool)
    (errorThreshold : ℚ) (expectedKey : List Bool)
    (nbInitialVectors : Nat) (nbDIQueries nbRandomVectors settleThreshold : Int)
    (fuel : Nat) (s : AttackState) : Except SatError AppSatResult :=
  match runPrologue design oracle randStream solveKey expectedKey nbInitialVectors s with
  | .error e => .error e
  | .ok (false, _) => .ok .fuelExhausted
  | .ok (true, s1) =>
      .ok (runAppSatLoop design oracle findDI rand errorThreshold nbDIQueries
        nbRandomVectors settleThreshold fuel { attack := s1, queryCount := 0, settleCount := 0 } [])

/-- Length of the maximal all-below-threshold suffix of the measurement
log: the number of consecutive most recent measurement rounds whose error
was strictly below the threshold.  This is the specification-side reading
of the `settleCount` counter. -/
def belowStreak (thr : ℚ) (log : List (Int × ℚ)) : Nat :=
  log.foldl (fun acc p => if p.2 < thr then acc + 1 else 0) 0

/-- Configuration errors of the `SatAttack` constructor:
`missingKeyPort` is the `log_cmd_error` of `getKeyPort`, `keyTooShort` the
`log_cmd_error` for a key shorter than the key port. -/
inductive CtorError
  | missingKeyPort
  | keyTooShort
  deriving DecidableEq, Repr

/-- Configuration established by a successful `SatAttack` constructor run:
the key-bit count and the expected key truncated (or padded) to it, plus
whether the too-long-key warning fired. -/
structure SatAttackConfig where
  nbKeyBits : Nat
  expectedKey : List Bool
  longKeyWarning : Bool
  deriving DecidableEq, Repr

/-- Constructor checks of `SatAttack::SatAttack` (sat_attack.cpp lines
9-26): a missing key port aborts; a key strictly shorter than the port
width aborts; a key longer by at least 4 bits only warns; the key is then
resized to the port width. -/
def satAttackCtor (keyPortWidth : Option Nat) (expectedKey : List Bool) :
    Except CtorError SatAttackConfig :=
  match keyPortWidth with
  | none => .error .missingKeyPort
  | some w =>
      if expectedKey.length < w then .error .keyTooShort
      else .ok { nbKeyBits := w,
                 expectedKey := expectedKey.take w ++ List.replicate (w - expectedKey.length) false,
                 longKeyWarning := decide (w + 4 ≤ expectedKey.length) }

/-- One combinational input position of the analyzer's input ordering
(`LogicLockingAnalyzer::get_comb_inputs`): either a bit of the key port at
a given offset, or an ordinary primary input. -/
inductive CombInput
  | keyBit (offset : Nat)
  | primary
  deriving DecidableEq, Repr

/-- Interleave the primary inputs and the key into the AIG input vector
following the fixed combinational-input ordering
(`SatAttack::toAigInputs`): key-port bits take the key bit at their
offset, other positions consume the next primary input. -/
def toAigInputs : List CombInput → List Bool → List Bool → List Bool
  | [], _, _ => []
  | .keyBit off :: rest, inputs, key => key.getD off false :: toAigInputs rest inputs key
  | .primary :: rest, inputs, key =>
      inputs.getD 0 false :: toAigInputs rest (inputs.drop 1) key

/-- Evaluate the locked design on (inputs, key)
(`SatAttack::callDesign` composed with
`LogicLockingAnalyzer::compute_output_value(inputs)`): interleave inputs
and key, turn booleans into all-ones/zero words, run the AIG batch
simulation, and read back booleans. -/
def callDesign (g : MiniAIG) (ci : List CombInput) (inputs key : List Bool) :
    List Bool × MiniAIG :=
  let aigInputs := toAigInputs ci inputs key
  let r := g.simulate (aigInputs.map fun b => if b then ones64 else 0)
  (r.1.map fun w => decide (w ≠ 0), r.2)

/-- Oracle query (`SatAttack::callOracle`): the design evaluated under the
expected key. -/
def callOracle (g : MiniAIG) (ci : List CombInput) (expectedKey : List Bool)
    (inputs : List Bool) : List Bool × MiniAIG :=
  callDesign g ci inputs expectedKey

/-- Proof-support: the list of fanout entries for variable `v` contributed
by the node slice `ns` starting at node index `idx`, in construction
order. -/
def fanList (nbI v : Nat) : List AIGNode → Nat → List Nat
  | [], _ => []
  | n :: rest, idx =>
      ((if n.a.var = v then [idx + nbI + 1] else []) ++
       (if n.b.var = v then [idx + nbI + 1] else [])) ++ fanList nbI v rest (idx + 1)

/-- Proof-support: termination measure of the incremental worklist loop,
the pending-work count plus the untouched-variable count. -/
def measOf (g : MiniAIG) : Nat := g.toVisit.length + g.isTouched.count false

/-- Proof-support: the fanout lists as built by `setupIncremental` for a
given node array. -/
def canonFo (nbI : Nat) (nodes : List AIGNode) : List (List Nat) :=
  buildFanouts nbI nodes 0 (List.replicate (nbI + nodes.length + 1) [])

/-- Proof-support invariant of the incremental worklist loop, relative to
the static node array, outputs, fanout lists and the saved baseline `s0`:
`Nv` is the toggled variable and `p` a bound below every pending variable
(every variable at or below `p` is settled).  The `node_state` field is the
local-consistency property: every node variable that is not pending holds
the AND of its fanins under the current state, xored with all-ones exactly
for the toggled variable. -/
structure IncInv (nbI : Nat) (nodes : List AIGNode) (outs : List Lit)
    (fo : List (List Nat)) (s0 : List Nat) (Nv : Nat) (p : Nat) (g : MiniAIG) : Prop where
  nodes_eq : g.nodes = nodes
  outputs_eq : g.outputs = outs
  nbI_eq : g.nbInputs = nbI
  fanouts_eq : g.fanouts = fo
  saved_eq : g.savedState = s0
  state_len : g.state.length = nbI + nodes.length + 1
  s0_len : s0.length = nbI + nodes.length + 1
  touched_len : g.isTouched.length = nbI + nodes.length + 1
  visit_sorted : g.toVisit.Pairwise (· < ·)
  visit_bounds : ∀ q ∈ g.toVisit, nbI + 1 ≤ q ∧ q < nbI + nodes.length + 1 ∧ p < q
  visit_touched : ∀ q ∈ g.toVisit, g.isTouched.getD q false = true
  touched_mem : ∀ j, g.isTouched.getD j false = true ↔ j ∈ g.touchedVars
  untouched_state : ∀ j, g.isTouched.getD j false = false → g.state.getD j 0 = s0.getD j 0
  zero_state : g.state.getD 0 0 = s0.getD 0 0
  input_state : ∀ i, i < nbI → g.state.getD (i + 1) 0 =
    (if i + 1 = Nv then ones64 else 0) ^^^ s0.getD (i + 1) 0
  node_state : ∀ j, j < nodes.length → (j + nbI + 1) ∉ g.toVisit →
    g.state.getD (j + nbI + 1) 0 =
      (if j + nbI + 1 = Nv then ones64 else 0) ^^^
        (litValue g.state (nodes.getD j default).a &&& litValue g.state (nodes.getD j default).b)
  touched_loc : ∀ j, g.isTouched.getD j false = true → j ∈ g.toVisit ∨ j ≤ p
  p_ge : Nv ≤ p

/-- Proof-support: the sampled input vectors on which the design under the
candidate key disagrees with the oracle, in sampling order. -/
def mismatchList (design : List Bool → List Bool → List Bool)
    (oracle : List Bool → List Bool) (bestKey : List Bool)
    (samples : List (List Bool)) : List (List Bool) :=
  samples.filter fun v => decide (design v bestKey ≠ oracle v)

/-- Concrete example AIG fixture: two inputs, an XOR structure (three AND
nodes) and a fourth AND node, with two outputs.  Used to exercise the
theorems on concrete data. -/
def exG0 : MiniAIG :=
  { nodes := [⟨⟨2⟩, ⟨5⟩⟩, ⟨⟨3⟩, ⟨4⟩⟩, ⟨⟨7⟩, ⟨9⟩⟩, ⟨⟨11⟩, ⟨2⟩⟩],
    outputs := [⟨11⟩, ⟨12⟩], nbInputs := 2,
    state := [0, 0, 0, 0, 0, 0, 0], fanouts := [], isTouched := [], touchedVars := [],
    toVisit := [], savedState := [] }

/-! Theorems.  The development below first characterises the batch
simulation loops, then the incremental machinery, then the attack
controller. -/

theorem Lit.var_eq_div (a : Lit) : a.var = a.data / 2 := by
  simp [Lit.var, Nat.shiftRight_eq_div_pow]

theorem Lit.inv_var (a : Lit) : a.inv.var = a.var := by
  rw [Lit.var_eq_div, Lit.var_eq_div]
  show (a.data ^^^ 1) / 2 = a.data / 2
  apply Nat.eq_of_testBit_eq
  intro i
  rw [Nat.testBit_div_two, Nat.testBit_div_two, Nat.testBit_xor]
  simp [Nat.testBit_succ]

theorem shiftedLit_var (d : Nat) : (Lit.mk (d <<< 1)).var = d := by
  rw [Lit.var_eq_div]
  simp [Nat.shiftLeft_eq]

theorem shiftedLit_polarity (d : Nat) : (Lit.mk (d <<< 1)).polarity = false := by
  have h : (d <<< 1) &&& 1 = 0 := by
    rw [Nat.shiftLeft_eq, Nat.and_one_is_mod]
    omega
  simp [Lit.polarity, h]

theorem xor_ones64_ne (a : Nat) : a ^^^ ones64 ≠ a := by
  intro h
  have h2 : a ^^^ (a ^^^ ones64) = a ^^^ a := by rw [h]
  rw [← Nat.xor_assoc, Nat.xor_self, Nat.zero_xor] at h2
  have h3 : ones64 ≠ 0 := by decide
  exact h3 h2

theorem getD_set_self {α : Type} (l : List α) (i : Nat) (v d : α) (h : i < l.length) :
    (l.set i v).getD i d = v := by
  simp [List.getD, List.getElem?_set, h]

theorem getD_set_ne {α : Type} (l : List α) {i j : Nat} (v : α) (d : α) (h : i ≠ j) :
    (l.set i v).getD j d = l.getD j d := by
  simp [List.getD, List.getElem?_set, h]

theorem litValue_congr {s t : List Nat} (a : Lit) (h : s.getD a.var 0 = t.getD a.var 0) :
    litValue s a = litValue t a := by
  simp only [litValue, h]

theorem writeInputs_length (vals : List Nat) (k : Nat) (st : List Nat) :
    (writeInputs vals k st).length = st.length := by
  induction vals generalizing k st with
  | nil => rfl
  | cons v rest ih => simp [writeInputs, ih]

theorem writeInputs_getD_le (vals : List Nat) (k : Nat) (st : List Nat) (p : Nat)
    (hp : p ≤ k) : (writeInputs vals k st).getD p 0 = st.getD p 0 := by
  induction vals generalizing k st with
  | nil => rfl
  | cons v rest ih =>
      rw [writeInputs, ih _ _ (by omega), getD_set_ne _ _ _ (by omega)]

theorem writeInputs_getD_at (vals : List Nat) (k : Nat) (st : List Nat) (i : Nat)
    (hi : i < vals.length) (hr : k + i + 1 < st.length) :
    (writeInputs vals k st).getD (k + i + 1) 0 = vals.getD i 0 := by
  induction vals generalizing k st i with
  | nil => simp at hi
  | cons v rest ih =>
      cases i with
      | zero =>
          rw [writeInputs, writeInputs_getD_le _ _ _ _ (by omega)]
          simpa using getD_set_self st (k + 1) v 0 (by omega)
      | succ m =>
          have h1 : k + (m + 1) + 1 = (k + 1) + m + 1 := by omega
          rw [writeInputs, h1, ih (k + 1) _ m (by simpa using hi) (by simp; omega)]
          simp [List.getD]

theorem writeInputsToggled_length (tset : List Nat) (vals : List Nat) (k : Nat)
    (st : List Nat) : (writeInputsToggled tset vals k st).length = st.length := by
  induction vals generalizing k st with
  | nil => rfl
  | cons v rest ih => simp [writeInputsToggled, ih]

theorem writeInputsToggled_getD_le (tset : List Nat) (vals : List Nat) (k : Nat)
    (st : List Nat) (p : Nat) (hp : p ≤ k) :
    (writeInputsToggled tset vals k st).getD p 0 = st.getD p 0 := by
  induction vals generalizing k st with
  | nil => rfl
  | cons v rest ih =>
      rw [writeInputsToggled, ih _ _ (by omega), getD_set_ne _ _ _ (by omega)]

theorem writeInputsToggled_getD_at (tset : List Nat) (vals : List Nat) (k : Nat)
    (st : List Nat) (i : Nat) (hi : i < vals.length) (hr : k + i + 1 < st.length) :
    (writeInputsToggled tset vals k st).getD (k + i + 1) 0 =
      (if (k + i + 1) ∈ tset then ones64 else 0) ^^^ vals.getD i 0 := by
  induction vals generalizing k st i with
  | nil => simp at hi
  | cons v rest ih =>
      cases i with
      | zero =>
          rw [writeInputsToggled, writeInputsToggled_getD_le _ _ _ _ _ (by omega)]
          simpa using getD_set_self st (k + 1) _ 0 (by omega)
      | succ m =>
          have h1 : k + (m + 1) + 1 = (k + 1) + m + 1 := by omega
          rw [writeInputsToggled, h1,
            ih (k + 1) _ m (by simpa using hi) (by simp; omega)]
          simp [List.getD]

theorem simNodes_length (nbI : Nat) (ns : List AIGNode) (j : Nat) (st : List Nat) :
    (simNodes nbI ns j st).length = st.length := by
  induction ns generalizing j st with
  | nil => rfl
  | cons n rest ih => simp [simNodes, ih]

theorem simNodes_getD_lt (nbI : Nat) (ns : List AIGNode) (j : Nat) (st : List Nat)
    (p : Nat) (hp : p < j + nbI + 1) :
    (simNodes nbI ns j st).getD p 0 = st.getD p 0 := by
  induction ns generalizing j st with
  | nil => rfl
  | cons n rest ih =>
      rw [simNodes, ih _ _ (by omega), getD_set_ne _ _ _ (by omega)]

theorem simNodes_consistency (nbI : Nat) (ns : List AIGNode) (j : Nat) (st : List Nat)
    (htopo : ∀ m, m < ns.length →
      (ns.getD m default).a.var < j + m + nbI + 1 ∧ (ns.getD m default).b.var < j + m + nbI + 1)
    (hlen : j + ns.length + nbI + 1 ≤ st.length) :
    ∀ m, m < ns.length →
      (simNodes nbI ns j st).getD (j + m + nbI + 1) 0 =
        litValue (simNodes nbI ns j st) (ns.getD m default).a &&&
          litValue (simNodes nbI ns j st) (ns.getD m default).b := by
  induction ns generalizing j st with
  | nil => intro m hm; simp at hm
  | cons n rest ih =>
      intro m hm
      have hva := (htopo 0 (by simp)).1
      have hvb := (htopo 0 (by simp)).2
      simp only [List.getD_cons_zero] at hva hvb
      cases m with
      | zero =>
          simp only [List.getD_cons_zero]
          have hstep : (simNodes nbI (n :: rest) j st) =
              simNodes nbI rest (j + 1) (st.set (j + nbI + 1) (litValue st n.a &&& litValue st n.b)) := rfl
          have hpos : (simNodes nbI (n :: rest) j st).getD (j + 0 + nbI + 1) 0 =
              litValue st n.a &&& litValue st n.b := by
            rw [hstep, simNodes_getD_lt _ _ _ _ _ (by omega)]
            exact getD_set_self st _ _ 0 (by simp at hlen ⊢; omega)
          rw [hpos]
          have hca : litValue (simNodes nbI (n :: rest) j st) n.a = litValue st n.a := by
            apply litValue_congr
            rw [hstep, simNodes_getD_lt _ _ _ _ _ (by omega), getD_set_ne _ _ _ (by omega)]
          have hcb : litValue (simNodes nbI (n :: rest) j st) n.b = litValue st n.b := by
            apply litValue_congr
            rw [hstep, simNodes_getD_lt _ _ _ _ _ (by omega), getD_set_ne _ _ _ (by omega)]
          rw [hca, hcb]
      | succ m' =>
          have h1 : j + (m' + 1) + nbI + 1 = (j + 1) + m' + nbI + 1 := by omega
          have h2 : ∀ m, m < rest.length →
              (rest.getD m default).a.var < (j + 1) + m + nbI + 1 ∧
              (rest.getD m default).b.var < (j + 1) + m + nbI + 1 := by
            intro m hmr
            have := htopo (m + 1) (by simpa using Nat.succ_lt_succ hmr)
            simp only [List.getD_cons_succ] at this
            constructor <;> [exact lt_of_lt_of_le this.1 (by omega);
              exact lt_of_lt_of_le this.2 (by omega)]
          have hm' : m' < rest.length := by simpa using hm
          have := ih (j + 1) (st.set (j + nbI + 1) (litValue st n.a &&& litValue st n.b)) h2
            (by simp at hlen ⊢; omega) m' hm'
          simp only [List.getD_cons_succ]
          rw [show (simNodes nbI (n :: rest) j st) =
              simNodes nbI rest (j + 1) (st.set (j + nbI + 1) (litValue st n.a &&& litValue st n.b)) from rfl]
          rw [h1]
          exact this

theorem simNodesToggled_length (nbI : Nat) (tset : List Nat) (ns : List AIGNode)
    (j : Nat) (st : List Nat) : (simNodesToggled nbI tset ns j st).length = st.length := by
  induction ns generalizing j st with
  | nil => rfl
  | cons n rest ih => simp [simNodesToggled, ih]

theorem simNodesToggled_getD_lt (nbI : Nat) (tset : List Nat) (ns : List AIGNode)
    (j : Nat) (st : List Nat) (p : Nat) (hp : p < j + nbI + 1) :
    (simNodesToggled nbI tset ns j st).getD p 0 = st.getD p 0 := by
  induction ns generalizing j st with
  | nil => rfl
  | cons n rest ih =>
      rw [simNodesToggled, ih _ _ (by omega), getD_set_ne _ _ _ (by omega)]

theorem simNodesToggled_consistency (nbI : Nat) (tset : List Nat) (ns : List AIGNode)
    (j : Nat) (st : List Nat)
    (htopo : ∀ m, m < ns.length →
      (ns.getD m default).a.var < j + m + nbI + 1 ∧ (ns.getD m default).b.var < j + m + nbI + 1)
    (hlen : j + ns.length + nbI + 1 ≤ st.length) :
    ∀ m, m < ns.length →
      (simNodesToggled nbI tset ns j st).getD (j + m + nbI + 1) 0 =
        (if (j + m + nbI + 1) ∈ tset then ones64 else 0) ^^^
          (litValue (simNodesToggled nbI tset ns j st) (ns.getD m default).a &&&
            litValue (simNodesToggled nbI tset ns j st) (ns.getD m default).b) := by
  induction ns generalizing j st with
  | nil => intro m hm; simp at hm
  | cons n rest ih =>
      intro m hm
      have hva := (htopo 0 (by simp)).1
      have hvb := (htopo 0 (by simp)).2
      simp only [List.getD_cons_zero] at hva hvb
      cases m with
      | zero =>
          simp only [List.getD_cons_zero]
          have hstep : (simNodesToggled nbI tset (n :: rest) j st) =
              simNodesToggled nbI tset rest (j + 1)
                (st.set (j + nbI + 1)
                  ((if (j + nbI + 1) ∈ tset then ones64 else 0) ^^^
                    (litValue st n.a &&& litValue st n.b))) := rfl
          have hpos : (simNodesToggled nbI tset (n :: rest) j st).getD (j + 0 + nbI + 1) 0 =
              (if (j + nbI + 1) ∈ tset then ones64 else 0) ^^^
                (litValue st n.a &&& litValue st n.b) := by
            rw [hstep, simNodesToggled_getD_lt _ _ _ _ _ _ (by omega)]
            exact getD_set_self st _ _ 0 (by simp at hlen ⊢; omega)
          have hca : litValue (simNodesToggled nbI tset (n :: rest) j st) n.a = litValue st n.a := by
            apply litValue_congr
            rw [hstep, simNodesToggled_getD_lt _ _ _ _ _ _ (by omega), getD_set_ne _ _ _ (by omega)]
          have hcb : litValue (simNodesToggled nbI tset (n :: rest) j st) n.b = litValue st n.b := by
            apply litValue_congr
            rw [hstep, simNodesToggled_getD_lt _ _ _ _ _ _ (by omega), getD_set_ne _ _ _ (by omega)]
          rw [hpos, hca, hcb]
          simp only [Nat.add_zero, show j + 0 + nbI + 1 = j + nbI + 1 from by omega]
      | succ m' =>
          have h1 : j + (m' + 1) + nbI + 1 = (j + 1) + m' + nbI + 1 := by omega
          have h2 : ∀ m, m < rest.length →
              (rest.getD m default).a.var < (j + 1) + m + nbI + 1 ∧
              (rest.getD m default).b.var < (j + 1) + m + nbI + 1 := by
            intro m hmr
            have := htopo (m + 1) (by simpa using Nat.succ_lt_succ hmr)
            simp only [List.getD_cons_succ] at this
            constructor <;> [exact lt_of_lt_of_le this.1 (by omega);
              exact lt_of_lt_of_le this.2 (by omega)]
          have hm' : m' < rest.length := by simpa using hm
          have := ih (j + 1)
            (st.set (j + nbI + 1)
              ((if (j + nbI + 1) ∈ tset then ones64 else 0) ^^^
                (litValue st n.a &&& litValue st n.b)))
            h2 (by simp at hlen ⊢; omega) m' hm'
          simp only [List.getD_cons_succ]
          rw [show (simNodesToggled nbI tset (n :: rest) j st) =
              simNodesToggled nbI tset rest (j + 1)
                (st.set (j + nbI + 1)
                  ((if (j + nbI + 1) ∈ tset then ones64 else 0) ^^^
                    (litValue st n.a &&& litValue st n.b))) from rfl]
          rw [h1]
          exact this

theorem stateUnique (nbI : Nat) (nodes : List AIGNode) (tm : Nat → Nat) (s t : List Nat)
    (htopo : TopoOk nbI nodes)
    (h0 : s.getD 0 0 = t.getD 0 0)
    (hin : ∀ i, i < nbI → s.getD (i + 1) 0 = t.getD (i + 1) 0)
    (hs : ∀ j, j < nodes.length → s.getD (j + nbI + 1) 0 =
      tm (j + nbI + 1) ^^^
        (litValue s (nodes.getD j default).a &&& litValue s (nodes.getD j default).b))
    (ht : ∀ j, j < nodes.length → t.getD (j + nbI + 1) 0 =
      tm (j + nbI + 1) ^^^
        (litValue t (nodes.getD j default).a &&& litValue t (nodes.getD j default).b)) :
    ∀ p, p < nbI + nodes.length + 1 → s.getD p 0 = t.getD p 0 := by
  intro p
  induction p using Nat.strong_induction_on with
  | _ p ih =>
      intro hp
      rcases Nat.lt_or_ge p (nbI + 1) with hlo | hhi
      · rcases Nat.eq_zero_or_pos p with h0p | hpos
        · subst h0p; exact h0
        · obtain ⟨i, rfl⟩ : ∃ i, p = i + 1 := ⟨p - 1, by omega⟩
          exact hin i (by omega)
      · obtain ⟨j, rfl⟩ : ∃ j, p = j + nbI + 1 := ⟨p - nbI - 1, by omega⟩
        have hj : j < nodes.length := by omega
        rw [hs j hj, ht j hj]
        have hva := (htopo j hj).1
        have hvb := (htopo j hj).2
        have ha : litValue s (nodes.getD j default).a = litValue t (nodes.getD j default).a :=
          litValue_congr _ (ih _ hva (by omega))
        have hb : litValue s (nodes.getD j default).b = litValue t (nodes.getD j default).b :=
          litValue_congr _ (ih _ hvb (by omega))
        rw [ha, hb]

theorem eq_of_getD {α : Type} (d : α) {l₁ l₂ : List α} (hlen : l₁.length = l₂.length)
    (h : ∀ p, p < l₁.length → l₁.getD p d = l₂.getD p d) : l₁ = l₂ := by
  apply List.ext_getElem hlen
  intro i h1 h2
  have := h i h1
  rwa [List.getD_eq_getElem _ _ h1, List.getD_eq_getElem _ _ h2] at this

theorem simulate_state_spec (g : MiniAIG) (vals : List Nat)
    (hlen : g.state.length = g.nbInputs + g.nodes.length + 1)
    (hvals : vals.length = g.nbInputs)
    (htopo : TopoOk g.nbInputs g.nodes) :
    (g.simulate vals).2.state.length = g.nbInputs + g.nodes.length + 1 ∧
    (g.simulate vals).2.state.getD 0 0 = 0 ∧
    (∀ i, i < g.nbInputs → (g.simulate vals).2.state.getD (i + 1) 0 = vals.getD i 0) ∧
    (∀ j, j < g.nodes.length → (g.simulate vals).2.state.getD (j + g.nbInputs + 1) 0 =
      litValue (g.simulate vals).2.state (g.nodes.getD j default).a &&&
        litValue (g.simulate vals).2.state (g.nodes.getD j default).b) := by
  have hst : (g.simulate vals).2.state =
      simNodes g.nbInputs g.nodes 0 (writeInputs vals 0 (g.state.set 0 0)) := rfl
  have hL : (simNodes g.nbInputs g.nodes 0 (writeInputs vals 0 (g.state.set 0 0))).length =
      g.nbInputs + g.nodes.length + 1 := by
    rw [simNodes_length, writeInputs_length]; simpa using hlen
  refine ⟨by rw [hst]; exact hL, ?_, ?_, ?_⟩
  · rw [hst, simNodes_getD_lt _ _ _ _ _ (by omega), writeInputs_getD_le _ _ _ _ (by omega)]
    exact getD_set_self _ _ _ _ (by omega)
  · intro i hi
    rw [hst, simNodes_getD_lt _ _ _ _ _ (by omega)]
    have := writeInputs_getD_at vals 0 (g.state.set 0 0) i (by omega) (by simp; omega)
    simpa using this
  · intro j hj
    rw [hst]
    have := simNodes_consistency g.nbInputs g.nodes 0 (writeInputs vals 0 (g.state.set 0 0))
      (by intro m hm
          have := htopo m hm
          constructor <;> [exact lt_of_lt_of_le this.1 (by omega);
            exact lt_of_lt_of_le this.2 (by omega)])
      (by rw [writeInputs_length]; simp; omega) j hj
    simpa [show (0 : Nat) + j + g.nbInputs + 1 = j + g.nbInputs + 1 from by omega] using this

theorem simulateWithToggling_state_spec (g : MiniAIG) (vals : List Nat) (toggling : List Lit)
    (hlen : g.state.length = g.nbInputs + g.nodes.length + 1)
    (hvals : vals.length = g.nbInputs)
    (htopo : TopoOk g.nbInputs g.nodes) :
    (g.simulateWithToggling vals toggling).2.state.length = g.nbInputs + g.nodes.length + 1 ∧
    (g.simulateWithToggling vals toggling).2.state.getD 0 0 = g.state.getD 0 0 ∧
    (∀ i, i < g.nbInputs → (g.simulateWithToggling vals toggling).2.state.getD (i + 1) 0 =
      (if (i + 1) ∈ toggling.map Lit.var then ones64 else 0) ^^^ vals.getD i 0) ∧
    (∀ j, j < g.nodes.length →
      (g.simulateWithToggling vals toggling).2.state.getD (j + g.nbInputs + 1) 0 =
      (if (j + g.nbInputs + 1) ∈ toggling.map Lit.var then ones64 else 0) ^^^
        (litValue (g.simulateWithToggling vals toggling).2.state (g.nodes.getD j default).a &&&
          litValue (g.simulateWithToggling vals toggling).2.state (g.nodes.getD j default).b)) := by
  have hst : (g.simulateWithToggling vals toggling).2.state =
      simNodesToggled g.nbInputs (toggling.map Lit.var) g.nodes 0
        (writeInputsToggled (toggling.map Lit.var) vals 0 g.state) := rfl
  refine ⟨?_, ?_, ?_, ?_⟩
  · rw [hst, simNodesToggled_length, writeInputsToggled_length]; exact hlen
  · rw [hst, simNodesToggled_getD_lt _ _ _ _ _ _ (by omega),
      writeInputsToggled_getD_le _ _ _ _ _ (by omega)]
  · intro i hi
    rw [hst, simNodesToggled_getD_lt _ _ _ _ _ _ (by omega)]
    have := writeInputsToggled_getD_at (toggling.map Lit.var) vals 0 g.state i (by omega)
      (by omega)
    simpa using this
  · intro j hj
    rw [hst]
    have := simNodesToggled_consistency g.nbInputs (toggling.map Lit.var) g.nodes 0
      (writeInputsToggled (toggling.map Lit.var) vals 0 g.state)
      (by intro m hm
          have := htopo m hm
          constructor <;> [exact lt_of_lt_of_le this.1 (by omega);
            exact lt_of_lt_of_le this.2 (by omega)])
      (by rw [writeInputsToggled_length]; omega) j hj
    simpa [show (0 : Nat) + j + g.nbInputs + 1 = j + g.nbInputs + 1 from by omega] using this

theorem mem_insertAsc (n a : Nat) (l : List Nat) :
    a ∈ insertAsc n l ↔ a = n ∨ a ∈ l := by
  induction l with
  | nil => simp [insertAsc]
  | cons m rest ih =>
      rw [insertAsc]
      rcases lt_trichotomy n m with h1 | h1 | h1
      · rw [if_pos h1]
        simp only [List.mem_cons] <;> tauto
      · rw [if_neg (by omega), if_pos h1]
        subst h1
        simp only [List.mem_cons] <;> tauto
      · rw [if_neg (by omega), if_neg (by omega)]
        simp only [List.mem_cons, ih] <;> tauto

theorem pairwise_insertAsc (n : Nat) (l : List Nat) (h : l.Pairwise (· < ·)) :
    (insertAsc n l).Pairwise (· < ·) := by
  induction l with
  | nil => simp [insertAsc]
  | cons m rest ih =>
      rw [List.pairwise_cons] at h
      rw [insertAsc]
      by_cases h1 : n < m
      · rw [if_pos h1, List.pairwise_cons]
        refine ⟨?_, List.Pairwise.cons h.1 h.2⟩
        intro x hx
        rcases List.mem_cons.mp hx with rfl | hx'
        · exact h1
        · exact lt_trans h1 (h.1 x hx')
      · by_cases h2 : n = m
        · simp only [if_neg h1, if_pos h2]
          exact List.Pairwise.cons h.1 h.2
        · simp only [if_neg h1, if_neg h2]
          rw [List.pairwise_cons]
          refine ⟨?_, ih h.2⟩
          intro x hx
          rcases (mem_insertAsc n x rest).mp hx with rfl | hx'
          · omega
          · exact h.1 x hx'

theorem length_insertAsc (n : Nat) (l : List Nat) (h : n ∉ l) :
    (insertAsc n l).length = l.length + 1 := by
  induction l with
  | nil => simp [insertAsc]
  | cons m rest ih =>
      rw [insertAsc]
      have h2 : n ≠ m := by intro he; exact h (he ▸ List.mem_cons_self m rest)
      by_cases h1 : n < m
      · simp [h1]
      · simp only [if_neg h1, if_neg h2, List.length_cons]
        rw [ih (fun hm => h (List.mem_cons_of_mem m hm))]

theorem addFanout_length (fo : List (List Nat)) (v i : Nat) :
    (addFanout fo v i).length = fo.length := by simp [addFanout]

theorem buildFanouts_length (nbI : Nat) (ns : List AIGNode) (idx : Nat)
    (fo : List (List Nat)) : (buildFanouts nbI ns idx fo).length = fo.length := by
  induction ns generalizing idx fo with
  | nil => rfl
  | cons n rest ih => rw [buildFanouts, ih, addFanout_length, addFanout_length]

theorem buildFanouts_getD (nbI : Nat) (ns : List AIGNode) (idx : Nat)
    (fo : List (List Nat)) (v : Nat) (hv : v < fo.length) :
    (buildFanouts nbI ns idx fo).getD v [] = fo.getD v [] ++ fanList nbI v ns idx := by
  induction ns generalizing idx fo with
  | nil => simp [buildFanouts, fanList]
  | cons n rest ih =>
      rw [buildFanouts, ih _ _ (by rw [addFanout_length, addFanout_length]; exact hv),
        fanList]
      have haf : ∀ (f : List (List Nat)) (w i : Nat), v < f.length →
          (addFanout f w i).getD v [] =
            f.getD v [] ++ (if w = v then [i] else []) := by
        intro f w i hw
        by_cases he : w = v
        · subst he
          rw [addFanout, getD_set_self _ _ _ _ hw]
          simp
        · rw [addFanout, getD_set_ne _ _ _ he]
          simp [he]
      rw [haf _ _ _ (by rw [addFanout_length]; exact hv), haf _ _ _ hv]
      simp [List.append_assoc]

theorem mem_fanList (nbI v q : Nat) (ns : List AIGNode) (idx : Nat) :
    q ∈ fanList nbI v ns idx ↔ ∃ m, m < ns.length ∧ q = idx + m + nbI + 1 ∧
      ((ns.getD m default).a.var = v ∨ (ns.getD m default).b.var = v) := by
  induction ns generalizing idx with
  | nil => simp [fanList]
  | cons n rest ih =>
      rw [fanList]
      simp only [List.mem_append, ih]
      constructor
      · rintro ((h | h) | ⟨m, hm, rfl, hv⟩)
        · refine ⟨0, by simp, ?_, ?_⟩
          · by_cases hc : n.a.var = v
            · simp [hc] at h; omega
            · simp [hc] at h
          · by_cases hc : n.a.var = v
            · simp [hc]
            · simp [hc] at h
        · refine ⟨0, by simp, ?_, ?_⟩
          · by_cases hc : n.b.var = v
            · simp [hc] at h; omega
            · simp [hc] at h
          · by_cases hc : n.b.var = v
            · simp [hc]
            · simp [hc] at h
        · exact ⟨m + 1, by simpa using Nat.succ_lt_succ hm, by simp; omega,
            by simpa using hv⟩
      · rintro ⟨m, hm, rfl, hv⟩
        cases m with
        | zero =>
            left
            simp only [List.getD_cons_zero] at hv
            rcases hv with hv | hv
            · left; simp [hv]
            · right; simp [hv]
        | succ m' =>
            right
            refine ⟨m', by simpa using hm, by omega, by simpa using hv⟩

theorem canonFanouts_mem (nbI : Nat) (nodes : List AIGNode) (htopo : TopoOk nbI nodes)
    (v q : Nat) :
    q ∈ (buildFanouts nbI nodes 0
        (List.replicate (nbI + nodes.length + 1) ([] : List Nat))).getD v [] ↔
      ∃ m, m < nodes.length ∧ q = m + nbI + 1 ∧
        ((nodes.getD m default).a.var = v ∨ (nodes.getD m default).b.var = v) := by
  by_cases hv : v < nbI + nodes.length + 1
  · rw [buildFanouts_getD _ _ _ _ _ (by simpa using hv)]
    have hrep : (List.replicate (nbI + nodes.length + 1) ([] : List Nat)).getD v [] = [] := by
      simp [List.getD]
    rw [hrep, List.nil_append, mem_fanList]
    constructor
    · rintro ⟨m, hm, rfl, h⟩; exact ⟨m, hm, by omega, h⟩
    · rintro ⟨m, hm, rfl, h⟩; exact ⟨m, hm, by omega, h⟩
  · constructor
    · intro h
      exfalso
      have hlen : (buildFanouts nbI nodes 0
          (List.replicate (nbI + nodes.length + 1) ([] : List Nat))).length =
          nbI + nodes.length + 1 := by
        rw [buildFanouts_length]; simp
      rw [List.getD_eq_default _ _ (by omega)] at h
      simp at h
    · rintro ⟨m, hm, rfl, h⟩
      exfalso
      have := htopo m hm
      omega

theorem countFalse_set_true (l : List Bool) (i : Nat) (h : i < l.length)
    (hf : l.getD i false = false) : (l.set i true).count false + 1 = l.count false := by
  induction l generalizing i with
  | nil => simp at h
  | cons b t ih =>
      cases i with
      | zero =>
          simp only [List.getD_cons_zero] at hf
          subst hf
          simp [List.count_cons]
      | succ i' =>
          simp only [List.getD_cons_succ] at hf
          have := ih i' (by simpa using h) hf
          have h2 : (b :: t).set (i' + 1) true = b :: t.set i' true := rfl
          rw [h2, List.count_cons, List.count_cons]
          omega

theorem sorted_length_le (l : List Nat) (V : Nat) (hs : l.Pairwise (· < ·))
    (hb : ∀ x ∈ l, x < V) : l.length ≤ V := by
  classical
  have hnd : l.Nodup := hs.imp (fun hlt => Nat.ne_of_lt hlt)
  have hsub : l.toFinset ⊆ Finset.range V := by
    intro x hx
    simp only [Finset.mem_range]
    exact hb x (by simpa using hx)
  have := Finset.card_le_card hsub
  simpa [List.toFinset_card_of_nodup hnd] using this

theorem pushFanouts_spec (fl : List Nat) (g : MiniAIG)
    (hfl : ∀ n ∈ fl, n < g.isTouched.length)
    (hvt : ∀ q ∈ g.toVisit, g.isTouched.getD q false = true)
    (hsort : g.toVisit.Pairwise (· < ·)) :
    (pushFanouts fl g).nodes = g.nodes ∧
    (pushFanouts fl g).outputs = g.outputs ∧
    (pushFanouts fl g).nbInputs = g.nbInputs ∧
    (pushFanouts fl g).fanouts = g.fanouts ∧
    (pushFanouts fl g).savedState = g.savedState ∧
    (pushFanouts fl g).state = g.state ∧
    (pushFanouts fl g).isTouched.length = g.isTouched.length ∧
    (∀ j, (pushFanouts fl g).isTouched.getD j false = true ↔
      g.isTouched.getD j false = true ∨ j ∈ fl) ∧
    (∀ j, j ∈ (pushFanouts fl g).toVisit ↔
      j ∈ g.toVisit ∨ (j ∈ fl ∧ g.isTouched.getD j false = false)) ∧
    (pushFanouts fl g).toVisit.Pairwise (· < ·) ∧
    (∀ q ∈ (pushFanouts fl g).toVisit, (pushFanouts fl g).isTouched.getD q false = true) ∧
    ((∀ j, g.isTouched.getD j false = true ↔ j ∈ g.touchedVars) →
      ∀ j, (pushFanouts fl g).isTouched.getD j false = true ↔
        j ∈ (pushFanouts fl g).touchedVars) ∧
    (pushFanouts fl g).toVisit.length + (pushFanouts fl g).isTouched.count false =
      g.toVisit.length + g.isTouched.count false := by
  induction fl generalizing g with
  | nil =>
      refine ⟨rfl, rfl, rfl, rfl, rfl, rfl, rfl, ?_, ?_, hsort, hvt, ?_, rfl⟩
      · intro j; simp [pushFanouts]
      · intro j; simp [pushFanouts]
      · intro h; simpa [pushFanouts] using h
  | cons n rest ih =>
      by_cases hn : g.isTouched.getD n false = true
      · have hstep : pushFanouts (n :: rest) g = pushFanouts rest g := by
          rw [pushFanouts, if_pos hn]
        obtain ⟨e1, e2, e3, e4, e5, e6, e7, e8, e9, e10, e11, e12, e13⟩ :=
          ih g (fun m hm => hfl m (List.mem_cons_of_mem n hm)) hvt hsort
        · rw [hstep]
          refine ⟨e1, e2, e3, e4, e5, e6, e7, ?_, ?_, e10, e11, e12, e13⟩
          · intro j
            rw [e8 j]
            constructor
            · rintro (h | h)
              · exact Or.inl h
              · exact Or.inr (List.mem_cons_of_mem n h)
            · rintro (h | h)
              · exact Or.inl h
              · rcases List.mem_cons.mp h with rfl | h'
                · exact Or.inl hn
                · exact Or.inr h'
          · intro j
            rw [e9 j]
            constructor
            · rintro (h | ⟨h1, h2⟩)
              · exact Or.inl h
              · exact Or.inr ⟨List.mem_cons_of_mem n h1, h2⟩
            · rintro (h | ⟨h1, h2⟩)
              · exact Or.inl h
              · rcases List.mem_cons.mp h1 with rfl | h'
                · rw [hn] at h2; cases h2
                · exact Or.inr ⟨h', h2⟩
      · have hn' : g.isTouched.getD n false = false := by
          cases hgn : g.isTouched.getD n false
          · rfl
          · exact absurd hgn hn
        have hnV : n < g.isTouched.length := hfl n (List.mem_cons_self n rest)
        have hnvisit : n ∉ g.toVisit := fun hmem => by
          have := hvt n hmem; rw [hn'] at this; cases this
        set g' : MiniAIG :=
          { g with isTouched := g.isTouched.set n true,
                   touchedVars := g.touchedVars ++ [n],
                   toVisit := insertAsc n g.toVisit } with hg'
        have hstep : pushFanouts (n :: rest) g = pushFanouts rest g' := by
          rw [pushFanouts, if_neg hn]
        have htch : ∀ j, g'.isTouched.getD j false =
            (if j = n then true else g.isTouched.getD j false) := by
          intro j
          by_cases hj : j = n
          · subst hj
            simpa [hg'] using getD_set_self g.isTouched j true false hnV
          · simpa [hg', hj] using getD_set_ne g.isTouched true false (fun he => hj he.symm)
        have hfl2 : ∀ m ∈ rest, m < g'.isTouched.length := by
          intro m hm
          have : g'.isTouched.length = g.isTouched.length := by simp [hg']
          rw [this]
          exact hfl m (List.mem_cons_of_mem n hm)
        have hvt2 : ∀ q ∈ g'.toVisit, g'.isTouched.getD q false = true := by
          intro q hq
          rw [htch q]
          rcases (mem_insertAsc n q g.toVisit).mp (by simpa [hg'] using hq) with rfl | hq'
          · simp
          · by_cases hqn : q = n
            · simp [hqn]
            · rw [if_neg hqn]; exact hvt q hq'
        have hsort2 : g'.toVisit.Pairwise (· < ·) := by
          simpa [hg'] using pairwise_insertAsc n g.toVisit hsort
        obtain ⟨e1, e2, e3, e4, e5, e6, e7, e8, e9, e10, e11, e12, e13⟩ :=
          ih g' hfl2 hvt2 hsort2
        rw [hstep]
        have hgf : g'.nodes = g.nodes ∧ g'.outputs = g.outputs ∧ g'.nbInputs = g.nbInputs ∧
            g'.fanouts = g.fanouts ∧ g'.savedState = g.savedState ∧ g'.state = g.state := by
          refine ⟨rfl, rfl, rfl, rfl, rfl, rfl⟩
        refine ⟨e1.trans hgf.1, e2.trans hgf.2.1, e3.trans hgf.2.2.1, e4.trans hgf.2.2.2.1,
          e5.trans hgf.2.2.2.2.1, e6.trans hgf.2.2.2.2.2, ?_, ?_, ?_, e10, e11, ?_, ?_⟩
        · rw [e7]; simp [hg']
        · intro j
          rw [e8 j, htch j]
          by_cases hj : j = n
          · subst hj; simp
          · rw [if_neg hj]
            constructor
            · rintro (h | h)
              · exact Or.inl h
              · exact Or.inr (List.mem_cons_of_mem n h)
            · rintro (h | h)
              · exact Or.inl h
              · rcases List.mem_cons.mp h with rfl | h'
                · exact absurd rfl hj
                · exact Or.inr h'
        · intro j
          rw [e9 j, htch j]
          have hmem : j ∈ g'.toVisit ↔ j = n ∨ j ∈ g.toVisit := by
            simpa [hg'] using mem_insertAsc n j g.toVisit
          rw [hmem]
          by_cases hj : j = n
          · subst hj
            constructor
            · intro _; exact Or.inr ⟨List.mem_cons_self j rest, hn'⟩
            · intro _; exact Or.inl (Or.inl rfl)
          · rw [if_neg hj]
            constructor
            · rintro ((rfl | h) | ⟨h1, h2⟩)
              · exact absurd rfl hj
              · exact Or.inl h
              · exact Or.inr ⟨List.mem_cons_of_mem n h1, h2⟩
            · rintro (h | ⟨h1, h2⟩)
              · exact Or.inl (Or.inr h)
              · rcases List.mem_cons.mp h1 with rfl | h'
                · exact absurd rfl hj
                · exact Or.inr ⟨h', h2⟩
        · intro hold
          apply e12
          intro j
          rw [htch j]
          by_cases hj : j = n
          · subst hj; simp [hg']
          · rw [if_neg hj]
            have : j ∈ g'.touchedVars ↔ j ∈ g.touchedVars := by
              simp [hg', hj]
            rw [this]
            exact hold j
        · rw [e13]
          have hlen : g'.toVisit.length = g.toVisit.length + 1 := by
            simpa [hg'] using length_insertAsc n g.toVisit hnvisit
          have hcnt : g'.isTouched.count false + 1 = g.isTouched.count false := by
            simpa [hg'] using countFalse_set_true g.isTouched n hnV hn'
          omega

theorem canonFo_mem (nbI : Nat) (nodes : List AIGNode) (htopo : TopoOk nbI nodes)
    (v q : Nat) : q ∈ (canonFo nbI nodes).getD v [] ↔
      ∃ m, m < nodes.length ∧ q = m + nbI + 1 ∧
        ((nodes.getD m default).a.var = v ∨ (nodes.getD m default).b.var = v) :=
  canonFanouts_mem nbI nodes htopo v q

theorem canonFo_elem_bounds (nbI : Nat) (nodes : List AIGNode) (htopo : TopoOk nbI nodes)
    {v q : Nat} (h : q ∈ (canonFo nbI nodes).getD v []) :
    nbI + 1 ≤ q ∧ q < nbI + nodes.length + 1 ∧ v < q := by
  obtain ⟨m, hm, rfl, hv⟩ := (canonFo_mem nbI nodes htopo v q).mp h
  have := htopo m hm
  omega

theorem canonFo_mem_node (nbI : Nat) (nodes : List AIGNode) (htopo : TopoOk nbI nodes)
    {j : Nat} (hj : j < nodes.length) (q : Nat) :
    (j + nbI + 1) ∈ (canonFo nbI nodes).getD q [] ↔
      ((nodes.getD j default).a.var = q ∨ (nodes.getD j default).b.var = q) := by
  rw [canonFo_mem nbI nodes htopo]
  constructor
  · rintro ⟨m, hm, he, hv⟩
    have : m = j := by omega
    subst this
    exact hv
  · intro hv
    exact ⟨j, hj, rfl, hv⟩

theorem updateState_touched (g : MiniAIG) (i v : Nat)
    (ht : g.isTouched.getD i false = true) :
    g.updateState i v = if g.state.getD i 0 = v then g
      else pushFanouts (g.fanouts.getD i []) { g with state := g.state.set i v } := by
  unfold MiniAIG.updateState
  rw [ht]
  simp

theorem updateState_untouched (g : MiniAIG) (i v : Nat)
    (ht : g.isTouched.getD i false = false) :
    g.updateState i v =
      if g.state.getD i 0 = v then
        { g with isTouched := g.isTouched.set i true, touchedVars := g.touchedVars ++ [i] }
      else pushFanouts (g.fanouts.getD i [])
        { g with isTouched := g.isTouched.set i true, touchedVars := g.touchedVars ++ [i],
                 state := g.state.set i v } := by
  unfold MiniAIG.updateState
  rw [ht]
  simp

theorem incStep_inv (nbI : Nat) (nodes : List AIGNode) (outs : List Lit) (s0 : List Nat)
    (Nv : Nat) (htopo : TopoOk nbI nodes)
    (g : MiniAIG) (p q : Nat) (rest : List Nat)
    (hinv : IncInv nbI nodes outs (canonFo nbI nodes) s0 Nv p g)
    (hq : g.toVisit = q :: rest) :
    IncInv nbI nodes outs (canonFo nbI nodes) s0 Nv q
      (MiniAIG.updateState { g with toVisit := rest } q
        (litValue g.state (g.nodes.getD (q - g.nbInputs - 1) default).a &&&
         litValue g.state (g.nodes.getD (q - g.nbInputs - 1) default).b)) ∧
    measOf (MiniAIG.updateState { g with toVisit := rest } q
        (litValue g.state (g.nodes.getD (q - g.nbInputs - 1) default).a &&&
         litValue g.state (g.nodes.getD (q - g.nbInputs - 1) default).b)) + 1 = measOf g := by
  have hqmem : q ∈ g.toVisit := by rw [hq]; exact List.mem_cons_self q rest
  obtain ⟨hqlo, hqhi, hpq⟩ := hinv.visit_bounds q hqmem
  have hqt : g.isTouched.getD q false = true := hinv.visit_touched q hqmem
  have hsrt : (q :: rest).Pairwise (· < ·) := hq ▸ hinv.visit_sorted
  rw [List.pairwise_cons] at hsrt
  have hjq : q - nbI - 1 < nodes.length ∧ q = (q - nbI - 1) + nbI + 1 := by omega
  have hnode_rw : g.nodes.getD (q - g.nbInputs - 1) default =
      nodes.getD (q - nbI - 1) default := by rw [hinv.nodes_eq, hinv.nbI_eq]
  have hqNv : q ≠ Nv := by have := hinv.p_ge; omega
  have hNvq : Nv ≤ q := by have := hinv.p_ge; omega
  have htj := htopo (q - nbI - 1) hjq.1
  set nd := nodes.getD (q - nbI - 1) default with hnd
  set v := litValue g.state nd.a &&& litValue g.state nd.b with hv
  have hvav : nd.a.var < q := by have := htj.1; omega
  have hvbv : nd.b.var < q := by have := htj.2; omega
  set gp : MiniAIG := { g with toVisit := rest } with hgp
  have hgpt : gp.isTouched.getD q false = true := hqt
  have hrw : MiniAIG.updateState gp q
      (litValue g.state (g.nodes.getD (q - g.nbInputs - 1) default).a &&&
       litValue g.state (g.nodes.getD (q - g.nbInputs - 1) default).b) =
      if gp.state.getD q 0 = v then gp
      else pushFanouts (gp.fanouts.getD q []) { gp with state := gp.state.set q v } := by
    rw [hnode_rw]
    exact updateState_touched gp q v hgpt
  rw [hrw]
  by_cases heq : gp.state.getD q 0 = v
  · rw [if_pos heq]
    constructor
    · refine ⟨hinv.nodes_eq, hinv.outputs_eq, hinv.nbI_eq, hinv.fanouts_eq, hinv.saved_eq,
        hinv.state_len, hinv.s0_len, hinv.touched_len, hsrt.2, ?_, ?_, hinv.touched_mem,
        hinv.untouched_state, hinv.zero_state, hinv.input_state, ?_, ?_, hNvq⟩
      · intro x hx
        obtain ⟨h1, h2, _⟩ := hinv.visit_bounds x (by rw [hq]; exact List.mem_cons_of_mem q hx)
        exact ⟨h1, h2, hsrt.1 x hx⟩
      · intro x hx
        exact hinv.visit_touched x (by rw [hq]; exact List.mem_cons_of_mem q hx)
      · intro j hjlen hjrest
        by_cases hje : j + nbI + 1 = q
        · have hj' : j = q - nbI - 1 := by omega
          subst hj'
          show g.state.getD (q - nbI - 1 + nbI + 1) 0 = _
          rw [← hjq.2, heq]
          rw [if_neg (by omega), Nat.zero_xor]
        · have : j + nbI + 1 ∉ g.toVisit := by
            rw [hq]
            intro hmem
            rcases List.mem_cons.mp hmem with he | he
            · exact hje he
            · exact hjrest he
          exact hinv.node_state j hjlen this
      · intro j hjt
        rcases hinv.touched_loc j hjt with hjv | hjp
        · rw [hq] at hjv
          rcases List.mem_cons.mp hjv with rfl | hjr
          · exact Or.inr (le_refl _)
          · exact Or.inl hjr
        · exact Or.inr (by omega)
    · show gp.toVisit.length + gp.isTouched.count false + 1 = measOf g
      rw [measOf, hq]
      have h1 : gp.toVisit.length = rest.length := rfl
      have h2 : gp.isTouched.count false = g.isTouched.count false := rfl
      rw [h1, h2]
      simp only [List.length_cons]
      omega
  · rw [if_neg heq]
    set g2 : MiniAIG := { gp with state := gp.state.set q v } with hg2
    have hfoq : gp.fanouts.getD q [] = (canonFo nbI nodes).getD q [] := by
      rw [show gp.fanouts = g.fanouts from rfl, hinv.fanouts_eq]
    rw [hfoq]
    have hfl : ∀ n ∈ (canonFo nbI nodes).getD q [], n < g2.isTouched.length := by
      intro n hn
      have := canonFo_elem_bounds nbI nodes htopo hn
      have hlen : g2.isTouched.length = nbI + nodes.length + 1 := hinv.touched_len
      omega
    have hvt2 : ∀ x ∈ g2.toVisit, g2.isTouched.getD x false = true := by
      intro x hx
      exact hinv.visit_touched x (by rw [hq]; exact List.mem_cons_of_mem q hx)
    have hsort2 : g2.toVisit.Pairwise (· < ·) := hsrt.2
    obtain ⟨e1, e2, e3, e4, e5, e6, e7, e8, e9, e10, e11, e12, e13⟩ :=
      pushFanouts_spec ((canonFo nbI nodes).getD q []) g2 hfl hvt2 hsort2
    set r := pushFanouts ((canonFo nbI nodes).getD q []) g2 with hr
    have hrstate : r.state = g.state.set q v := e6
    have hrtouchlen : r.isTouched.length = nbI + nodes.length + 1 :=
      e7.trans hinv.touched_len
    have hqslen : q < g.state.length := by rw [hinv.state_len]; omega
    have hg2touch : ∀ j, g2.isTouched.getD j false = g.isTouched.getD j false := fun _ => rfl
    constructor
    · refine ⟨e1.trans hinv.nodes_eq, e2.trans hinv.outputs_eq, e3.trans hinv.nbI_eq,
        e4.trans hinv.fanouts_eq, e5.trans hinv.saved_eq, ?_, hinv.s0_len, hrtouchlen,
        e10, ?_, e11, e12 hinv.touched_mem, ?_, ?_, ?_, ?_, ?_, hNvq⟩
      · rw [hrstate]
        simpa using hinv.state_len
      · intro x hx
        rcases (e9 x).mp hx with hxr | ⟨hxf, _⟩
        · obtain ⟨h1, h2, _⟩ := hinv.visit_bounds x
            (by rw [hq]; exact List.mem_cons_of_mem q hxr)
          exact ⟨h1, h2, hsrt.1 x hxr⟩
        · obtain ⟨h1, h2, h3⟩ := canonFo_elem_bounds nbI nodes htopo hxf
          exact ⟨h1, h2, h3⟩
      · intro j hju
        have hju' : g.isTouched.getD j false = false ∧ j ∉ (canonFo nbI nodes).getD q [] := by
          by_contra hc
          push_neg at hc
          rcases hgj : g.isTouched.getD j false with hf | ht
          · exact absurd hgj (by
              intro hgjf
              have := hc hgjf
              have : r.isTouched.getD j false = true := (e8 j).mpr (Or.inr this)
              rw [hju] at this; cases this)
          · have : r.isTouched.getD j false = true := (e8 j).mpr (Or.inl hgj)
            rw [hju] at this; cases this
        have hjq2 : j ≠ q := by
          intro he
          rw [he] at hju'
          rw [hqt] at hju'
          exact absurd hju'.1 (by simp)
        rw [hrstate, getD_set_ne _ _ _ (fun he => hjq2 he.symm)]
        exact hinv.untouched_state j hju'.1
      · rw [hrstate, getD_set_ne _ _ _ (by omega)]
        exact hinv.zero_state
      · intro i hi
        rw [hrstate, getD_set_ne _ _ _ (by omega)]
        exact hinv.input_state i hi
      · intro j hjlen hjvis
        by_cases hje : j + nbI + 1 = q
        · have hj' : j = q - nbI - 1 := by omega
          subst hj'
          rw [show (q - nbI - 1 + nbI + 1) = q from by omega, ← hnd]
          have hca : litValue r.state nd.a = litValue g.state nd.a := by
            apply litValue_congr
            rw [hrstate, getD_set_ne _ _ _ (by omega)]
          have hcb : litValue r.state nd.b = litValue g.state nd.b := by
            apply litValue_congr
            rw [hrstate, getD_set_ne _ _ _ (by omega)]
          rw [hca, hcb, if_neg hqNv, Nat.zero_xor, hrstate]
          exact getD_set_self _ _ _ _ hqslen
        · have hjold : j + nbI + 1 ∉ g.toVisit := by
            rw [hq]
            intro hmem
            rcases List.mem_cons.mp hmem with he | he
            · exact hje he
            · exact hjvis ((e9 _).mpr (Or.inl he))
          have hold := hinv.node_state j hjlen hjold
          by_cases hfan : (nodes.getD j default).a.var = q ∨ (nodes.getD j default).b.var = q
          · exfalso
            have hmem : (j + nbI + 1) ∈ (canonFo nbI nodes).getD q [] :=
              (canonFo_mem_node nbI nodes htopo hjlen q).mpr hfan
            have htj : g.isTouched.getD (j + nbI + 1) false = true := by
              rcases hgj : g.isTouched.getD (j + nbI + 1) false with hf | ht
              · exact absurd (by
                  exact (e9 _).mpr (Or.inr ⟨hmem, hgj⟩)) hjvis
              · rfl
            rcases hinv.touched_loc _ htj with hjv | hjp
            · exact hjold hjv
            · have := canonFo_elem_bounds nbI nodes htopo hmem
              omega
          · push_neg at hfan
            have hca : litValue r.state (nodes.getD j default).a =
                litValue g.state (nodes.getD j default).a := by
              apply litValue_congr
              rw [hrstate, getD_set_ne _ _ _ (fun he => hfan.1 he.symm)]
            have hcb : litValue r.state (nodes.getD j default).b =
                litValue g.state (nodes.getD j default).b := by
              apply litValue_congr
              rw [hrstate, getD_set_ne _ _ _ (fun he => hfan.2 he.symm)]
            rw [hca, hcb, ← hold, hrstate]
            exact getD_set_ne _ _ _ (fun he => hje he.symm)
      · intro j hjt
        rcases (e8 j).mp hjt with hjg | hjf
        · rcases hinv.touched_loc j hjg with hjv | hjp
          · rw [hq] at hjv
            rcases List.mem_cons.mp hjv with rfl | hjr
            · exact Or.inr (le_refl _)
            · exact Or.inl ((e9 j).mpr (Or.inl hjr))
          · exact Or.inr (by omega)
        · rcases hgj : g.isTouched.getD j false with hf | ht
          · exact Or.inl ((e9 j).mpr (Or.inr ⟨hjf, hgj⟩))
          · rcases hinv.touched_loc j hgj with hjv | hjp
            · rw [hq] at hjv
              rcases List.mem_cons.mp hjv with rfl | hjr
              · exact Or.inr (le_refl _)
              · exact Or.inl ((e9 j).mpr (Or.inl hjr))
            · exact Or.inr (by omega)
    · show r.toVisit.length + r.isTouched.count false + 1 = measOf g
      have h2 : g2.toVisit.length = rest.length := rfl
      have h3 : g2.isTouched.count false = g.isTouched.count false := rfl
      rw [measOf, hq]
      simp only [List.length_cons]
      omega

theorem incLoop_inv (nbI : Nat) (nodes : List AIGNode) (outs : List Lit) (s0 : List Nat)
    (Nv : Nat) (htopo : TopoOk nbI nodes) :
    ∀ fuel (g : MiniAIG) (p : Nat),
      IncInv nbI nodes outs (canonFo nbI nodes) s0 Nv p g → measOf g ≤ fuel →
      ∃ p', IncInv nbI nodes outs (canonFo nbI nodes) s0 Nv p' (incLoop fuel g) ∧
        (incLoop fuel g).toVisit = [] := by
  intro fuel
  induction fuel with
  | zero =>
      intro g p hinv hm
      have hnil : g.toVisit = [] := by
        rw [measOf] at hm
        exact List.eq_nil_of_length_eq_zero (by omega)
      exact ⟨p, hinv, hnil⟩
  | succ fuel ih =>
      intro g p hinv hm
      cases hq : g.toVisit with
      | nil =>
          have hred : incLoop (fuel + 1) g = g := by
            rw [incLoop, hq]
          rw [hred]
          exact ⟨p, hinv, hq⟩
      | cons q rest =>
          obtain ⟨hstep, hmeas⟩ := incStep_inv nbI nodes outs s0 Nv htopo g p q rest hinv hq
          have hred : incLoop (fuel + 1) g = incLoop fuel
              (MiniAIG.updateState { g with toVisit := rest } q
                (litValue g.state (g.nodes.getD (q - g.nbInputs - 1) default).a &&&
                 litValue g.state (g.nodes.getD (q - g.nbInputs - 1) default).b)) := by
            rw [incLoop, hq]
          rw [hred]
          exact ih _ q hstep (by omega)

theorem measOf_le (nbI : Nat) (nodes : List AIGNode) (outs : List Lit) (s0 : List Nat)
    (Nv p : Nat) (g : MiniAIG)
    (hinv : IncInv nbI nodes outs (canonFo nbI nodes) s0 Nv p g) :
    measOf g ≤ 2 * (nbI + nodes.length + 1) := by
  have h1 : g.toVisit.length ≤ nbI + nodes.length + 1 :=
    sorted_length_le g.toVisit (nbI + nodes.length + 1) hinv.visit_sorted
      (fun x hx => (hinv.visit_bounds x hx).2.1)
  have h2 : g.isTouched.count false ≤ g.isTouched.length := List.count_le_length _ _
  have h3 := hinv.touched_len
  rw [measOf]
  omega

theorem incInit_inv (nbI : Nat) (nodes : List AIGNode) (outs : List Lit) (s0 : List Nat)
    (Nv : Nat) (htopo : TopoOk nbI nodes)
    (hNv1 : 1 ≤ Nv) (hNvV : Nv < nbI + nodes.length + 1)
    (hs0len : s0.length = nbI + nodes.length + 1)
    (hs0node : ∀ j, j < nodes.length → s0.getD (j + nbI + 1) 0 =
      litValue s0 (nodes.getD j default).a &&& litValue s0 (nodes.getD j default).b) :
    IncInv nbI nodes outs (canonFo nbI nodes) s0 Nv Nv
      (MiniAIG.updateState
        { nodes := nodes, outputs := outs, nbInputs := nbI, state := s0,
          fanouts := canonFo nbI nodes,
          isTouched := List.replicate (nbI + nodes.length + 1) false,
          touchedVars := [], toVisit := [], savedState := s0 }
        Nv (s0.getD Nv 0 ^^^ ones64)) := by
  set V := nbI + nodes.length + 1 with hV
  set gR : MiniAIG :=
    { nodes := nodes, outputs := outs, nbInputs := nbI, state := s0,
      fanouts := canonFo nbI nodes, isTouched := List.replicate V false,
      touchedVars := [], toVisit := [], savedState := s0 } with hgR
  have hrepl : ∀ j, (List.replicate V false).getD j false = false := by
    intro j
    by_cases h : j < V <;> simp [List.getD, List.getElem?_replicate, h]
  have hunt : gR.isTouched.getD Nv false = false := hrepl Nv
  have hne : ¬(gR.state.getD Nv 0 = s0.getD Nv 0 ^^^ ones64) := by
    intro h
    exact xor_ones64_ne (s0.getD Nv 0) h.symm
  rw [updateState_untouched gR Nv _ hunt, if_neg hne]
  set gm : MiniAIG :=
    { gR with isTouched := gR.isTouched.set Nv true, touchedVars := gR.touchedVars ++ [Nv],
              state := gR.state.set Nv (s0.getD Nv 0 ^^^ ones64) } with hgm
  have htchlen : gm.isTouched.length = V := by
    have h1 : gm.isTouched = (List.replicate V false).set Nv true := rfl
    rw [h1]
    simp
  have hmtch : ∀ j, gm.isTouched.getD j false = (if j = Nv then true else false) := by
    intro j
    have h1 : gm.isTouched = (List.replicate V false).set Nv true := rfl
    by_cases hj : j = Nv
    · subst hj
      rw [if_pos rfl, h1]
      exact getD_set_self _ _ _ _ (by simpa using hNvV)
    · rw [if_neg hj, h1, getD_set_ne _ _ _ (fun he => hj he.symm)]
      exact hrepl j
  have hfl : ∀ n ∈ (canonFo nbI nodes).getD Nv [], n < gm.isTouched.length := by
    intro n hn
    have := canonFo_elem_bounds nbI nodes htopo hn
    omega
  have hvt : ∀ x ∈ gm.toVisit, gm.isTouched.getD x false = true := by
    intro x hx
    simp [hgm, hgR] at hx
  have hsort : gm.toVisit.Pairwise (· < ·) := by
    simp [hgm, hgR]
  obtain ⟨e1, e2, e3, e4, e5, e6, e7, e8, e9, e10, e11, e12, e13⟩ :=
    pushFanouts_spec ((canonFo nbI nodes).getD Nv []) gm hfl hvt hsort
  set r := pushFanouts ((canonFo nbI nodes).getD Nv []) gm with hr
  have hrstate : r.state = s0.set Nv (s0.getD Nv 0 ^^^ ones64) := e6
  have hNvs : Nv < s0.length := by omega
  have hrt : ∀ j, r.isTouched.getD j false = true ↔ j = Nv ∨ j ∈ (canonFo nbI nodes).getD Nv [] := by
    intro j
    rw [e8 j, hmtch j]
    by_cases hj : j = Nv
    · simp [hj]
    · simp [hj]
  refine ⟨e1, e2, e3, e4, e5, ?_, hs0len, e7.trans htchlen, e10, ?_, e11, ?_, ?_, ?_, ?_, ?_, ?_,
    le_refl Nv⟩
  · rw [hrstate]; simpa using hs0len
  · intro x hx
    rcases (e9 x).mp hx with hxm | ⟨hxf, _⟩
    · simp [hgm, hgR] at hxm
    · have := canonFo_elem_bounds nbI nodes htopo hxf
      exact ⟨this.1, this.2.1, this.2.2⟩
  · exact e12 (by
      intro j
      rw [hmtch j]
      by_cases hj : j = Nv
      · subst hj; simp [hgm, hgR]
      · simp [hgm, hgR, hj])
  · intro j hju
    have hjNv : j ≠ Nv := by
      intro he
      rw [(hrt j).mpr (Or.inl he)] at hju
      cases hju
    rw [hrstate, getD_set_ne _ _ _ (fun he => hjNv he.symm)]
  · rw [hrstate, getD_set_ne _ _ _ (by omega)]
  · intro i hi
    by_cases hj : i + 1 = Nv
    · rw [if_pos hj, hrstate, hj, getD_set_self _ _ _ _ hNvs, Nat.xor_comm]
    · rw [if_neg hj, hrstate, getD_set_ne _ _ _ (fun he => hj he.symm), Nat.zero_xor]
  · intro j hjlen hjvis
    by_cases hje : j + nbI + 1 = Nv
    · have hfa : (nodes.getD j default).a.var < Nv := by
        have := (htopo j hjlen).1; omega
      have hfb : (nodes.getD j default).b.var < Nv := by
        have := (htopo j hjlen).2; omega
      have hca : litValue r.state (nodes.getD j default).a =
          litValue s0 (nodes.getD j default).a := by
        apply litValue_congr
        rw [hrstate, getD_set_ne _ _ _ (by omega)]
      have hcb : litValue r.state (nodes.getD j default).b =
          litValue s0 (nodes.getD j default).b := by
        apply litValue_congr
        rw [hrstate, getD_set_ne _ _ _ (by omega)]
      rw [if_pos hje, hca, hcb, ← hs0node j hjlen, hrstate, hje, getD_set_self _ _ _ _ hNvs,
        Nat.xor_comm]
    · have hnf : j + nbI + 1 ∉ (canonFo nbI nodes).getD Nv [] := by
        intro hmem
        have htj : gm.isTouched.getD (j + nbI + 1) false = false := by
          rw [hmtch]
          simp [hje]
        exact hjvis ((e9 _).mpr (Or.inr ⟨hmem, htj⟩))
      have hfan := (canonFo_mem_node nbI nodes htopo hjlen Nv).not.mp hnf
      push_neg at hfan
      have hca : litValue r.state (nodes.getD j default).a =
          litValue s0 (nodes.getD j default).a := by
        apply litValue_congr
        rw [hrstate, getD_set_ne _ _ _ (fun he => hfan.1 he.symm)]
      have hcb : litValue r.state (nodes.getD j default).b =
          litValue s0 (nodes.getD j default).b := by
        apply litValue_congr
        rw [hrstate, getD_set_ne _ _ _ (fun he => hfan.2 he.symm)]
      rw [if_neg hje, hca, hcb, Nat.zero_xor, ← hs0node j hjlen, hrstate,
        getD_set_ne _ _ _ (fun he => hje he.symm)]
  · intro j hjt
    rcases (hrt j).mp hjt with rfl | hjf
    · exact Or.inr (le_refl j)
    · have htj : gm.isTouched.getD j false = true ∨ gm.isTouched.getD j false = false := by
        rcases gm.isTouched.getD j false with _ | _
        · exact Or.inr rfl
        · exact Or.inl rfl
      rcases htj with ht | hf
      · rw [hmtch] at ht
        by_cases hj : j = Nv
        · exact Or.inr (le_of_eq hj)
        · rw [if_neg hj] at ht; cases ht
      · exact Or.inl ((e9 j).mpr (Or.inr ⟨hjf, hf⟩))

theorem MiniAIG.eq_of_fields {g₁ g₂ : MiniAIG} (h1 : g₁.nodes = g₂.nodes)
    (h2 : g₁.outputs = g₂.outputs) (h3 : g₁.nbInputs = g₂.nbInputs)
    (h4 : g₁.state = g₂.state) (h5 : g₁.fanouts = g₂.fanouts)
    (h6 : g₁.isTouched = g₂.isTouched) (h7 : g₁.touchedVars = g₂.touchedVars)
    (h8 : g₁.toVisit = g₂.toVisit) (h9 : g₁.savedState = g₂.savedState) : g₁ = g₂ := by
  cases g₁; cases g₂
  simp_all

theorem resetLoop_spec (tv : List Nat) (g : MiniAIG) :
    (resetLoop tv g).nodes = g.nodes ∧ (resetLoop tv g).outputs = g.outputs ∧
    (resetLoop tv g).nbInputs = g.nbInputs ∧ (resetLoop tv g).fanouts = g.fanouts ∧
    (resetLoop tv g).savedState = g.savedState ∧ (resetLoop tv g).toVisit = g.toVisit ∧
    (resetLoop tv g).touchedVars = g.touchedVars ∧
    (resetLoop tv g).state.length = g.state.length ∧
    (resetLoop tv g).isTouched.length = g.isTouched.length ∧
    (∀ j, (resetLoop tv g).state.getD j 0 =
      if j ∈ tv ∧ j < g.state.length then g.savedState.getD j 0 else g.state.getD j 0) ∧
    (∀ j, (resetLoop tv g).isTouched.getD j false =
      if j ∈ tv ∧ j < g.isTouched.length then false else g.isTouched.getD j false) := by
  induction tv generalizing g with
  | nil =>
      refine ⟨rfl, rfl, rfl, rfl, rfl, rfl, rfl, rfl, rfl, ?_, ?_⟩ <;>
        · intro j; simp [resetLoop]
  | cons i rest ih =>
      have hred : resetLoop (i :: rest) g =
          resetLoop rest { g with isTouched := g.isTouched.set i false,
                                  state := g.state.set i (g.savedState.getD i 0) } := rfl
      set g' : MiniAIG := { g with isTouched := g.isTouched.set i false,
                                   state := g.state.set i (g.savedState.getD i 0) } with hg'
      obtain ⟨f1, f2, f3, f4, f5, f6, f7, f8, f9, f10, f11⟩ := ih g'
      rw [hred]
      have hslen : g'.state.length = g.state.length := by simp [hg']
      have htlen : g'.isTouched.length = g.isTouched.length := by simp [hg']
      refine ⟨f1, f2, f3, f4, f5, f6, f7, f8.trans hslen, f9.trans htlen, ?_, ?_⟩
      · intro j
        rw [f10 j, hslen]
        have hsv : g'.savedState = g.savedState := rfl
        rw [hsv]
        by_cases hjr : j ∈ rest
        · by_cases hjl : j < g.state.length
          · rw [if_pos ⟨hjr, hjl⟩, if_pos ⟨List.mem_cons_of_mem i hjr, hjl⟩]
          · rw [if_neg (by tauto), if_neg (by tauto)]
            show (g.state.set i (g.savedState.getD i 0)).getD j 0 = g.state.getD j 0
            by_cases hij : i = j
            · subst hij
              rw [List.set_eq_of_length_le (by omega)]
            · exact getD_set_ne _ _ _ hij
        · rw [if_neg (by tauto)]
          by_cases hij : j = i
          · subst hij
            by_cases hjl : j < g.state.length
            · rw [if_pos ⟨List.mem_cons_self j rest, hjl⟩]
              exact getD_set_self _ _ _ _ hjl
            · rw [if_neg (by tauto)]
              show (g.state.set j (g.savedState.getD j 0)).getD j 0 = g.state.getD j 0
              rw [List.set_eq_of_length_le (by omega)]
          · rw [if_neg (by
              rintro ⟨hmem, _⟩
              rcases List.mem_cons.mp hmem with he | he
              · exact hij he
              · exact hjr he)]
            exact getD_set_ne _ _ _ (fun he => hij he.symm)
      · intro j
        rw [f11 j, htlen]
        by_cases hjr : j ∈ rest
        · by_cases hjl : j < g.isTouched.length
          · rw [if_pos ⟨hjr, hjl⟩, if_pos ⟨List.mem_cons_of_mem i hjr, hjl⟩]
          · rw [if_neg (by tauto), if_neg (by tauto)]
            show (g.isTouched.set i false).getD j false = g.isTouched.getD j false
            by_cases hij : i = j
            · subst hij
              rw [List.set_eq_of_length_le (by omega)]
            · exact getD_set_ne _ _ _ hij
        · rw [if_neg (by tauto)]
          by_cases hij : j = i
          · subst hij
            by_cases hjl : j < g.isTouched.length
            · rw [if_pos ⟨List.mem_cons_self j rest, hjl⟩]
              exact getD_set_self _ _ _ _ hjl
            · rw [if_neg (by tauto)]
              show (g.isTouched.set j false).getD j false = g.isTouched.getD j false
              rw [List.set_eq_of_length_le (by omega)]
          · rw [if_neg (by
              rintro ⟨hmem, _⟩
              rcases List.mem_cons.mp hmem with he | he
              · exact hij he
              · exact hjr he)]
            exact getD_set_ne _ _ _ (fun he => hij he.symm)

theorem getD_replicate_false (V j : Nat) : (List.replicate V false).getD j false = false := by
  by_cases h : j < V <;> simp [List.getD, List.getElem?_replicate, h]

theorem readyForm (g₀ : MiniAIG) (inputVals : List Nat)
    (hfresh_t : g₀.isTouched = []) (hfresh_v : g₀.toVisit = []) :
    ((g₀.setupIncremental.simulate inputVals).2.copyIncrementalState) =
    { nodes := g₀.nodes, outputs := g₀.outputs, nbInputs := g₀.nbInputs,
      state := (g₀.setupIncremental.simulate inputVals).2.state,
      fanouts := canonFo g₀.nbInputs g₀.nodes,
      isTouched := List.replicate (g₀.nbInputs + g₀.nodes.length + 1) false,
      touchedVars := [], toVisit := [],
      savedState := (g₀.setupIncremental.simulate inputVals).2.state } := by
  apply MiniAIG.eq_of_fields
  · rfl
  · rfl
  · rfl
  · rfl
  · rfl
  · show resizeFalse g₀.isTouched (g₀.nbInputs + g₀.nodes.length + 1) = _
    rw [hfresh_t]
    simp [resizeFalse]
  · rfl
  · exact hfresh_v
  · rfl

theorem incProbe_lit (nbI : Nat) (nodes : List AIGNode) (outs : List Lit)
    (s0 : List Nat) (inputVals : List Nat) (N : Lit)
    (htopo : TopoOk nbI nodes) (hN1 : 1 ≤ N.var) (hNV : N.var < nbI + nodes.length + 1)
    (hs0len : s0.length = nbI + nodes.length + 1)
    (hvals : inputVals.length = nbI)
    (hs0in : ∀ i, i < nbI → s0.getD (i + 1) 0 = inputVals.getD i 0)
    (hs0node : ∀ j, j < nodes.length → s0.getD (j + nbI + 1) 0 =
      litValue s0 (nodes.getD j default).a &&& litValue s0 (nodes.getD j default).b) :
    (MiniAIG.simulateIncremental
      { nodes := nodes, outputs := outs, nbInputs := nbI, state := s0,
        fanouts := canonFo nbI nodes,
        isTouched := List.replicate (nbI + nodes.length + 1) false,
        touchedVars := [], toVisit := [], savedState := s0 } N).1 =
    (MiniAIG.simulateWithToggling
      { nodes := nodes, outputs := outs, nbInputs := nbI, state := s0,
        fanouts := canonFo nbI nodes,
        isTouched := List.replicate (nbI + nodes.length + 1) false,
        touchedVars := [], toVisit := [], savedState := s0 } inputVals [N]).1 ∧
    (MiniAIG.simulateIncremental
      { nodes := nodes, outputs := outs, nbInputs := nbI, state := s0,
        fanouts := canonFo nbI nodes,
        isTouched := List.replicate (nbI + nodes.length + 1) false,
        touchedVars := [], toVisit := [], savedState := s0 } N).2 =
    { nodes := nodes, outputs := outs, nbInputs := nbI, state := s0,
      fanouts := canonFo nbI nodes,
      isTouched := List.replicate (nbI + nodes.length + 1) false,
      touchedVars := [], toVisit := [], savedState := s0 } := by
  set gR : MiniAIG :=
    { nodes := nodes, outputs := outs, nbInputs := nbI, state := s0,
      fanouts := canonFo nbI nodes,
      isTouched := List.replicate (nbI + nodes.length + 1) false,
      touchedVars := [], toVisit := [], savedState := s0 } with hgR
  have hinit := incInit_inv nbI nodes outs s0 N.var htopo hN1 hNV hs0len hs0node
  set g1 : MiniAIG := MiniAIG.updateState gR N.var (s0.getD N.var 0 ^^^ ones64) with hg1
  have hfuel : measOf g1 ≤ 2 * g1.state.length + 2 := by
    have h1 := measOf_le nbI nodes outs s0 N.var N.var g1 hinit
    have h2 := hinit.state_len
    omega
  obtain ⟨p', hfin, hnil⟩ := incLoop_inv nbI nodes outs s0 N.var htopo
    (2 * g1.state.length + 2) g1 N.var hinit hfuel
  set F : MiniAIG := incLoop (2 * g1.state.length + 2) g1 with hF
  have hT := simulateWithToggling_state_spec gR inputVals [N] hs0len hvals htopo
  set T := (gR.simulateWithToggling inputVals [N]).2.state with hT2
  have hmask : ∀ w, (if w ∈ ([N].map Lit.var) then ones64 else 0) =
      (if w = N.var then ones64 else 0) := by
    intro w
    simp [List.mem_singleton]
  have hpt := stateUnique nbI nodes (fun w => if w = N.var then ones64 else 0) F.state T htopo
    (hfin.zero_state.trans hT.2.1.symm)
    (by
      intro i hi
      rw [hfin.input_state i hi, hs0in i hi, hT.2.2.1 i hi, hmask])
    (by
      intro j hj
      exact hfin.node_state j hj (by rw [hnil]; simp))
    (by
      intro j hj
      rw [hT.2.2.2 j hj, hmask])
  have hstateeq : F.state = T := by
    apply eq_of_getD 0 (hfin.state_len.trans hT.1.symm)
    intro p hp
    exact hpt p (by rw [hfin.state_len] at hp; exact hp)
  constructor
  · calc (gR.simulateIncremental N).1 = Moosic.getOutputValues F.state F.outputs := rfl
      _ = Moosic.getOutputValues T outs := by rw [hstateeq, hfin.outputs_eq]
      _ = (gR.simulateWithToggling inputVals [N]).1 := rfl
  · show F.resetIncrementalState = gR
    obtain ⟨r1, r2, r3, r4, r5, r6, r7, r8, r9, r10, r11⟩ := resetLoop_spec F.touchedVars F
    have huntouch : ∀ j, j ∉ F.touchedVars → F.isTouched.getD j false = false := by
      intro j hj
      cases hx : F.isTouched.getD j false
      · rfl
      · exact absurd ((hfin.touched_mem j).mp hx) hj
    apply MiniAIG.eq_of_fields
    · exact r1.trans hfin.nodes_eq
    · exact r2.trans hfin.outputs_eq
    · exact r3.trans hfin.nbI_eq
    · show (resetLoop F.touchedVars F).state = gR.state
      apply eq_of_getD 0
      · rw [r8, hfin.state_len]
        exact hs0len.symm
      · intro p hp
        rw [r10 p]
        by_cases hmem : p ∈ F.touchedVars ∧ p < F.state.length
        · rw [if_pos hmem, hfin.saved_eq]
        · rw [if_neg hmem]
          push_neg at hmem
          by_cases hmem2 : p ∈ F.touchedVars
          · have hbig := hmem hmem2
            rw [List.getD_eq_default _ _ (by omega)]
            show (0 : Nat) = s0.getD p 0
            rw [List.getD_eq_default _ _ (by rw [hs0len, ← hfin.state_len]; omega)]
          · exact hfin.untouched_state p (huntouch p hmem2)
    · exact r4.trans hfin.fanouts_eq
    · show (resetLoop F.touchedVars F).isTouched = gR.isTouched
      apply eq_of_getD false
      · rw [r9, hfin.touched_len]
        show nbI + nodes.length + 1 = (List.replicate (nbI + nodes.length + 1) false).length
        simp
      · intro p hp
        rw [r11 p, getD_replicate_false]
        by_cases hmem : p ∈ F.touchedVars ∧ p < F.isTouched.length
        · rw [if_pos hmem]
        · rw [if_neg hmem]
          push_neg at hmem
          by_cases hmem2 : p ∈ F.touchedVars
          · have hbig := hmem hmem2
            rw [List.getD_eq_default _ _ (by omega)]
          · exact huntouch p hmem2
    · rfl
    · exact r6.trans hnil
    · exact r5.trans hfin.saved_eq

/-- C1: for every MiniAIG on which `setupIncremental` has been run and whose
state holds a baseline produced by a full batch `simulate` (snapshotted by
`copyIncrementalState`), and for every non-constant literal `N` of the AIG,
`simulateIncremental N` returns output words bit-identical to those of full
batch simulation of the same baseline inputs with variable `N` toggled,
i.e. to `simulateWithToggling inputVals [N]`. -/
theorem simulateIncremental_eq_batch
    (g₀ : MiniAIG) (inputVals : List Nat) (N : Lit)
    (hfresh_t : g₀.isTouched = []) (hfresh_v : g₀.toVisit = [])
    (hlen : g₀.state.length = g₀.nbInputs + g₀.nodes.length + 1)
    (hvals : inputVals.length = g₀.nbInputs)
    (htopo : TopoOk g₀.nbInputs g₀.nodes)
    (hNc : N.isConstant = false)
    (hNV : N.var < g₀.nbInputs + g₀.nodes.length + 1) :
    ((g₀.setupIncremental.simulate inputVals).2.copyIncrementalState.simulateIncremental N).1 =
    ((g₀.setupIncremental.simulate inputVals).2.copyIncrementalState.simulateWithToggling
      inputVals [N]).1 := by
  have hN1 : 1 ≤ N.var := by
    simp [Lit.isConstant] at hNc
    omega
  have hspec := simulate_state_spec g₀.setupIncremental inputVals hlen hvals htopo
  rw [readyForm g₀ inputVals hfresh_t hfresh_v]
  exact (incProbe_lit g₀.nbInputs g₀.nodes g₀.outputs
    (g₀.setupIncremental.simulate inputVals).2.state inputVals N htopo hN1 hNV
    hspec.1 hvals hspec.2.2.1 hspec.2.2.2).1

/-- Witness for C1: the equivalence holds on the concrete example AIG with
the first XOR-structure node toggled. -/
theorem simulateIncremental_eq_batch_witness :
    (exG0.isTouched = [] ∧ exG0.toVisit = [] ∧
     exG0.state.length = exG0.nbInputs + exG0.nodes.length + 1 ∧
     ([12, 10] : List Nat).length = exG0.nbInputs ∧
     TopoOk exG0.nbInputs exG0.nodes ∧
     (Lit.mk 6).isConstant = false ∧
     (Lit.mk 6).var < exG0.nbInputs + exG0.nodes.length + 1) ∧
    ((exG0.setupIncremental.simulate [12, 10]).2.copyIncrementalState.simulateIncremental
      (Lit.mk 6)).1 =
    ((exG0.setupIncremental.simulate [12, 10]).2.copyIncrementalState.simulateWithToggling
      [12, 10] [Lit.mk 6]).1 :=
  ⟨⟨by decide, by decide, by decide, by decide, by decide, by decide, by decide⟩,
   simulateIncremental_eq_batch exG0 [12, 10] (Lit.mk 6) (by decide) (by decide) (by decide)
     (by decide) (by decide) (by decide) (by decide)⟩

/-- C7: after `simulateIncremental` returns, every touched variable has been
restored from the snapshot and unmarked, so the AIG is back in its baseline
configuration; hence probing the same literal twice yields identical
outputs, and a probe's result does not depend on which probe preceded it. -/
theorem simulateIncremental_restores
    (g₀ : MiniAIG) (inputVals : List Nat) (N : Lit)
    (hfresh_t : g₀.isTouched = []) (hfresh_v : g₀.toVisit = [])
    (hlen : g₀.state.length = g₀.nbInputs + g₀.nodes.length + 1)
    (hvals : inputVals.length = g₀.nbInputs)
    (htopo : TopoOk g₀.nbInputs g₀.nodes)
    (hNc : N.isConstant = false)
    (hNV : N.var < g₀.nbInputs + g₀.nodes.length + 1) :
    ((g₀.setupIncremental.simulate inputVals).2.copyIncrementalState.simulateIncremental N).2 =
      (g₀.setupIncremental.simulate inputVals).2.copyIncrementalState ∧
    (((g₀.setupIncremental.simulate inputVals).2.copyIncrementalState.simulateIncremental
        N).2.simulateIncremental N).1 =
      ((g₀.setupIncremental.simulate inputVals).2.copyIncrementalState.simulateIncremental N).1 ∧
    (∀ M : Lit, M.isConstant = false → M.var < g₀.nbInputs + g₀.nodes.length + 1 →
      (((g₀.setupIncremental.simulate inputVals).2.copyIncrementalState.simulateIncremental
          M).2.simulateIncremental N).1 =
        ((g₀.setupIncremental.simulate inputVals).2.copyIncrementalState.simulateIncremental
          N).1) := by
  have hN1 : 1 ≤ N.var := by
    simp [Lit.isConstant] at hNc
    omega
  have hspec := simulate_state_spec g₀.setupIncremental inputVals hlen hvals htopo
  rw [readyForm g₀ inputVals hfresh_t hfresh_v]
  have hres : ∀ (M : Lit), M.isConstant = false →
      M.var < g₀.nbInputs + g₀.nodes.length + 1 →
      (MiniAIG.simulateIncremental
        { nodes := g₀.nodes, outputs := g₀.outputs, nbInputs := g₀.nbInputs,
          state := (g₀.setupIncremental.simulate inputVals).2.state,
          fanouts := canonFo g₀.nbInputs g₀.nodes,
          isTouched := List.replicate (g₀.nbInputs + g₀.nodes.length + 1) false,
          touchedVars := [], toVisit := [],
          savedState := (g₀.setupIncremental.simulate inputVals).2.state } M).2 =
      { nodes := g₀.nodes, outputs := g₀.outputs, nbInputs := g₀.nbInputs,
        state := (g₀.setupIncremental.simulate inputVals).2.state,
        fanouts := canonFo g₀.nbInputs g₀.nodes,
        isTouched := List.replicate (g₀.nbInputs + g₀.nodes.length + 1) false,
        touchedVars := [], toVisit := [],
        savedState := (g₀.setupIncremental.simulate inputVals).2.state } := by
    intro M hMc hMV
    have hM1 : 1 ≤ M.var := by
      simp [Lit.isConstant] at hMc
      omega
    exact (incProbe_lit g₀.nbInputs g₀.nodes g₀.outputs
      (g₀.setupIncremental.simulate inputVals).2.state inputVals M htopo hM1 hMV
      hspec.1 hvals hspec.2.2.1 hspec.2.2.2).2
  refine ⟨hres N hNc hNV, ?_, ?_⟩
  · rw [hres N hNc hNV]
  · intro M hMc hMV
    rw [hres M hMc hMV]

/-- Witness for C7: restoration and probe-independence hold on the concrete
example AIG. -/
theorem simulateIncremental_restores_witness :
    (exG0.isTouched = [] ∧ exG0.toVisit = [] ∧
     exG0.state.length = exG0.nbInputs + exG0.nodes.length + 1 ∧
     ([12, 10] : List Nat).length = exG0.nbInputs ∧
     TopoOk exG0.nbInputs exG0.nodes ∧
     (Lit.mk 6).isConstant = false ∧
     (Lit.mk 6).var < exG0.nbInputs + exG0.nodes.length + 1) ∧
    (((exG0.setupIncremental.simulate [12, 10]).2.copyIncrementalState.simulateIncremental
        (Lit.mk 6)).2 =
      (exG0.setupIncremental.simulate [12, 10]).2.copyIncrementalState ∧
     (((exG0.setupIncremental.simulate [12, 10]).2.copyIncrementalState.simulateIncremental
         (Lit.mk 6)).2.simulateIncremental (Lit.mk 6)).1 =
       ((exG0.setupIncremental.simulate [12, 10]).2.copyIncrementalState.simulateIncremental
         (Lit.mk 6)).1 ∧
     (∀ M : Lit, M.isConstant = false → M.var < exG0.nbInputs + exG0.nodes.length + 1 →
       (((exG0.setupIncremental.simulate [12, 10]).2.copyIncrementalState.simulateIncremental
           M).2.simulateIncremental (Lit.mk 6)).1 =
         ((exG0.setupIncremental.simulate [12, 10]).2.copyIncrementalState.simulateIncremental
           (Lit.mk 6)).1)) :=
  ⟨⟨by decide, by decide, by decide, by decide, by decide, by decide, by decide⟩,
   simulateIncremental_restores exG0 [12, 10] (Lit.mk 6) (by decide) (by decide) (by decide)
     (by decide) (by decide) (by decide) (by decide)⟩

theorem getD_append_lt {α : Type} (l : List α) (x d : α) (j : Nat) (hj : j < l.length) :
    (l ++ [x]).getD j d = l.getD j d := by
  rw [List.getD_eq_getElem _ _ (by simp; omega), List.getD_eq_getElem _ _ hj]
  exact List.getElem_append_left hj

theorem getD_append_len {α : Type} (l : List α) (x d : α) :
    (l ++ [x]).getD l.length d = x := by
  rw [List.getD_eq_getElem _ _ (by simp)]
  simp

theorem checkTopoPart_of (g : MiniAIG)
    (h1 : g.state.length = g.nbInputs + g.nodes.length + 1)
    (h2 : TopoOk g.nbInputs g.nodes) : g.checkTopoPart = true := by
  unfold MiniAIG.checkTopoPart
  simp only [Bool.and_eq_true, beq_iff_eq, List.all_eq_true, decide_eq_true_eq]
  refine ⟨⟨by omega, ?_⟩, ?_⟩
  · intro n hn
    obtain ⟨j, hj, he⟩ := List.getElem_of_mem hn
    have h3 := h2 j hj
    rw [List.getD_eq_getElem _ _ hj, he] at h3
    exact ⟨by omega, by omega⟩
  · intro j hj
    rw [List.mem_range] at hj
    exact h2 j hj

/-- C8: every AIG built only through the public construction interface
(a fresh `MiniAIG`, `getInput`-style literals, `addAnd` and the gate
builders derived from it, `addOutput`) keeps its nodes topologically
sorted — both fanin literals of every node reference variables with
strictly smaller index — and its state array sized
`nbInputs + nodes + 1`, so the topological-order assertions of `check`
hold. -/
theorem built_invariants (g : MiniAIG) (h : Built g) :
    g.state.length = g.nbInputs + g.nodes.length + 1 ∧
    TopoOk g.nbInputs g.nodes ∧
    g.checkTopoPart = true := by
  have hmain : g.state.length = g.nbInputs + g.nodes.length + 1 ∧
      TopoOk g.nbInputs g.nodes := by
    induction h with
    | init n =>
        constructor
        · simp [MiniAIG.mk0]
        · intro j hj
          simp [MiniAIG.mk0] at hj
    | @and g' a b hg ha hb ih =>
        constructor
        · show (g'.state ++ [0]).length = g'.nbInputs + (g'.nodes ++ [AIGNode.mk a b]).length + 1
          simp
          omega
        · intro j hj
          show ((g'.nodes ++ [AIGNode.mk a b]).getD j default).a.var < j + g'.nbInputs + 1 ∧
               ((g'.nodes ++ [AIGNode.mk a b]).getD j default).b.var < j + g'.nbInputs + 1
          have hj2 : j < g'.nodes.length + 1 := by
            simpa [MiniAIG.addAnd] using hj
          by_cases hje : j < g'.nodes.length
          · rw [getD_append_lt _ _ _ _ hje]
            exact ih.2 j hje
          · have hj3 : j = g'.nodes.length := by omega
            subst hj3
            rw [getD_append_len]
            exact ⟨by simp; omega, by simp; omega⟩
    | @out g' l hg ih =>
        exact ih
  exact ⟨hmain.1, hmain.2, checkTopoPart_of g hmain.1 hmain.2⟩

/-- Witness for C8: a concretely built two-node AIG satisfies the
invariants. -/
theorem built_invariants_witness :
    Built ((((MiniAIG.mk0 2).addAnd (Lit.mk 2) (Lit.mk 5)).2.addAnd (Lit.mk 3) (Lit.mk 4)).2.addOutput (Lit.mk 6)) ∧
    ((((MiniAIG.mk0 2).addAnd (Lit.mk 2) (Lit.mk 5)).2.addAnd (Lit.mk 3) (Lit.mk 4)).2.addOutput (Lit.mk 6)).state.length =
      ((((MiniAIG.mk0 2).addAnd (Lit.mk 2) (Lit.mk 5)).2.addAnd (Lit.mk 3) (Lit.mk 4)).2.addOutput (Lit.mk 6)).nbInputs +
      ((((MiniAIG.mk0 2).addAnd (Lit.mk 2) (Lit.mk 5)).2.addAnd (Lit.mk 3) (Lit.mk 4)).2.addOutput (Lit.mk 6)).nodes.length + 1 ∧
    TopoOk ((((MiniAIG.mk0 2).addAnd (Lit.mk 2) (Lit.mk 5)).2.addAnd (Lit.mk 3) (Lit.mk 4)).2.addOutput (Lit.mk 6)).nbInputs
      ((((MiniAIG.mk0 2).addAnd (Lit.mk 2) (Lit.mk 5)).2.addAnd (Lit.mk 3) (Lit.mk 4)).2.addOutput (Lit.mk 6)).nodes ∧
    ((((MiniAIG.mk0 2).addAnd (Lit.mk 2) (Lit.mk 5)).2.addAnd (Lit.mk 3) (Lit.mk 4)).2.addOutput (Lit.mk 6)).checkTopoPart = true :=
  have hB : Built ((((MiniAIG.mk0 2).addAnd (Lit.mk 2) (Lit.mk 5)).2.addAnd (Lit.mk 3) (Lit.mk 4)).2.addOutput (Lit.mk 6)) :=
    Built.out _ (Built.and _ _ (Built.and _ _ (Built.init 2) (by decide) (by decide))
      (by decide) (by decide))
  have hc := built_invariants _ hB
  ⟨hB, hc.1, hc.2.1, hc.2.2⟩

theorem built_addNand {g : MiniAIG} (a b : Lit) (h : Built g)
    (ha : a.var < g.nbInputs + g.nodes.length + 1)
    (hb : b.var < g.nbInputs + g.nodes.length + 1) : Built (g.addNand a b).2 :=
  Built.and a b h ha hb

theorem built_addNor {g : MiniAIG} (a b : Lit) (h : Built g)
    (ha : a.var < g.nbInputs + g.nodes.length + 1)
    (hb : b.var < g.nbInputs + g.nodes.length + 1) : Built (g.addNor a b).2 :=
  Built.and a.inv b.inv h (by rwa [Lit.inv_var]) (by rwa [Lit.inv_var])

theorem built_addOr {g : MiniAIG} (a b : Lit) (h : Built g)
    (ha : a.var < g.nbInputs + g.nodes.length + 1)
    (hb : b.var < g.nbInputs + g.nodes.length + 1) : Built (g.addOr a b).2 :=
  built_addNor a b h ha hb

theorem built_addBuffer {g : MiniAIG} (a : Lit) (h : Built g)
    (ha : a.var < g.nbInputs + g.nodes.length + 1) : Built (g.addBuffer a).2 :=
  Built.and a a h ha ha

theorem built_addNot {g : MiniAIG} (a : Lit) (h : Built g)
    (ha : a.var < g.nbInputs + g.nodes.length + 1) : Built (g.addNot a).2 :=
  Built.and a a h ha ha

theorem addAnd_snd_nbInputs (g : MiniAIG) (a b : Lit) :
    (g.addAnd a b).2.nbInputs = g.nbInputs := rfl

theorem addAnd_snd_nodes_len (g : MiniAIG) (a b : Lit) :
    (g.addAnd a b).2.nodes.length = g.nodes.length + 1 := by
  simp [MiniAIG.addAnd]

theorem addAnd_fst_var (g : MiniAIG) (a b : Lit) :
    (g.addAnd a b).1.var = g.nodes.length + g.nbInputs + 1 := by
  show (Lit.mk ((g.nodes.length + g.nbInputs + 1) <<< 1)).var = _
  exact shiftedLit_var _

theorem built_addXor {g : MiniAIG} (a b : Lit) (h : Built g)
    (ha : a.var < g.nbInputs + g.nodes.length + 1)
    (hb : b.var < g.nbInputs + g.nodes.length + 1) : Built (g.addXor a b).2 := by
  have h1 : Built (g.addAnd a b.inv).2 := Built.and a b.inv h ha (by rwa [Lit.inv_var])
  have h2 : Built ((g.addAnd a b.inv).2.addAnd a.inv b).2 :=
    Built.and a.inv b h1
      (by simp only [Lit.inv_var, addAnd_snd_nbInputs, addAnd_snd_nodes_len]; omega)
      (by simp only [addAnd_snd_nbInputs, addAnd_snd_nodes_len]; omega)
  exact built_addOr _ _ h2
    (by simp only [addAnd_fst_var, addAnd_snd_nbInputs, addAnd_snd_nodes_len]; omega)
    (by simp only [addAnd_fst_var, addAnd_snd_nbInputs, addAnd_snd_nodes_len]; omega)

theorem built_addXnor {g : MiniAIG} (a b : Lit) (h : Built g)
    (ha : a.var < g.nbInputs + g.nodes.length + 1)
    (hb : b.var < g.nbInputs + g.nodes.length + 1) : Built (g.addXnor a b).2 :=
  built_addXor a b h ha hb

theorem built_addMux {g : MiniAIG} (s a b : Lit) (h : Built g)
    (hs : s.var < g.nbInputs + g.nodes.length + 1)
    (ha : a.var < g.nbInputs + g.nodes.length + 1)
    (hb : b.var < g.nbInputs + g.nodes.length + 1) : Built (g.addMux s a b).2 := by
  have h1 : Built (g.addAnd s.inv a).2 := Built.and s.inv a h (by rwa [Lit.inv_var]) ha
  have h2 : Built ((g.addAnd s.inv a).2.addAnd s b).2 :=
    Built.and s b h1
      (by simp only [addAnd_snd_nbInputs, addAnd_snd_nodes_len]; omega)
      (by simp only [addAnd_snd_nbInputs, addAnd_snd_nodes_len]; omega)
  exact built_addOr _ _ h2
    (by simp only [addAnd_fst_var, addAnd_snd_nbInputs, addAnd_snd_nodes_len]; omega)
    (by simp only [addAnd_fst_var, addAnd_snd_nbInputs, addAnd_snd_nodes_len]; omega)

/-- C10: the `addNot` of mini_aig.hpp is `addAnd(a, a)` with no edge
inversion, which is exactly `addBuffer`: under batch simulation its literal
evaluates to the fanin's own value, not its bitwise negation.  At the
failing input (one-input AIG, `addNot(getInput 0)` as sole output, input
word 0) the output word is 0, whereas the negation would be the all-ones
word. -/
theorem addNot_is_buffer_not_negation :
    (∀ (g : MiniAIG) (a : Lit), g.addNot a = g.addBuffer a) ∧
    ((((MiniAIG.mk0 1).addNot ((MiniAIG.mk0 1).getInput 0)).2.addOutput
        (((MiniAIG.mk0 1).addNot ((MiniAIG.mk0 1).getInput 0)).1)).simulate [0]).1 = [0] ∧
    (0 : Nat) ≠ 0 ^^^ ones64 :=
  ⟨fun _ _ => rfl, by decide, by decide⟩

theorem genVectors_eq (oracle : List Bool → List Bool) (rand : Nat → List Bool)
    (n : Nat) (s : AttackState) :
    genVectors oracle rand n s =
      { s with testInputs := s.testInputs ++ (List.range n).map rand,
               testOutputs := s.testOutputs ++ ((List.range n).map rand).map oracle } := by
  induction n with
  | zero => simp [genVectors]
  | succ m ih =>
      have hstep : genVectors oracle rand (m + 1) s =
          addTestVector oracle (genVectors oracle rand m s) (rand m) := by
        rw [genVectors, genVectors, List.range_succ, List.foldl_append]
        rfl
      rw [hstep, ih, List.range_succ]
      simp [addTestVector, List.append_assoc]

theorem zip_self_map_snd {α β : Type} (f : α → β) (l : List α) :
    ∀ p ∈ l.zip (l.map f), p.2 = f p.1 := by
  induction l with
  | nil => intro p hp; simp at hp
  | cons x rest ih =>
      intro p hp
      rcases List.mem_cons.mp hp with rfl | hp'
      · rfl
      · exact ih p hp'

/-- C5: after `runPrologue` fills the store by querying the oracle (which
is `callDesign` under the expected key), the expected key passes every
stored test vector — outputs were produced by the same deterministic
evaluation — so the fatal `log_error` branch of `runPrologue` is
unreachable. -/
theorem prologue_expected_key_passes
    (design : List Bool → List Bool → List Bool) (randStream : Nat → List Bool)
    (solveKey : AttackState → Option (List Bool)) (expectedKey : List Bool)
    (n : Nat) (s : AttackState) :
    keyPassesTests design
      (genVectors (fun inp => design inp expectedKey) randStream n
        { s with testInputs := [], testOutputs := [] }) expectedKey = true ∧
    runPrologue design (fun inp => design inp expectedKey) randStream solveKey
      expectedKey n s ≠ Except.error SatError.expectedKeyFails := by
  have hpass : keyPassesTests design
      (genVectors (fun inp => design inp expectedKey) randStream n
        { s with testInputs := [], testOutputs := [] }) expectedKey = true := by
    rw [genVectors_eq]
    rw [keyPassesTests, List.all_eq_true]
    intro p hp
    simp only [List.nil_append] at hp
    have := zip_self_map_snd (fun inp => design inp expectedKey)
      ((List.range n).map randStream) p hp
    rw [beq_iff_eq, this]
  refine ⟨hpass, ?_⟩
  rw [runPrologue, hpass]
  simp only [Bool.true_eq_false, if_false]
  cases solveKey { genVectors (fun inp => design inp expectedKey) randStream n
      { s with testInputs := [], testOutputs := [] } with keyFound := false, bestKey := [] } <;>
    simp

theorem runSatLoop_zero (oracle : List Bool → List Bool)
    (solveDI : AttackState → Option (List Bool × List Bool))
    (solveKey : AttackState → Option (List Bool)) (s : AttackState) :
    runSatLoop oracle solveDI solveKey 0 s = Except.error SatError.fuelExhausted := rfl

theorem runSatLoop_eq_none {oracle : List Bool → List Bool}
    {solveDI : AttackState → Option (List Bool × List Bool)}
    {solveKey : AttackState → Option (List Bool)} {fuel : Nat} {s : AttackState}
    (hdi : solveDI s = none) :
    runSatLoop oracle solveDI solveKey (fuel + 1) s = Except.ok { s with keyFound := true } := by
  rw [runSatLoop, hdi]

theorem runSatLoop_eq_sat {oracle : List Bool → List Bool}
    {solveDI : AttackState → Option (List Bool × List Bool)}
    {solveKey : AttackState → Option (List Bool)} {fuel : Nat} {s : AttackState}
    {ci ck : List Bool} (hdi : solveDI s = some (ci, ck)) :
    runSatLoop oracle solveDI solveKey (fuel + 1) s =
      (match solveKey (addTestVector oracle s ci) with
       | none => Except.ok { addTestVector oracle s ci with bestKey := [] }
       | some k => runSatLoop oracle solveDI solveKey fuel
           { addTestVector oracle s ci with bestKey := k }) := by
  rw [runSatLoop, hdi]

theorem runSatLoop_inv (design : List Bool → List Bool → List Bool)
    (oracle : List Bool → List Bool)
    (solveDI : AttackState → Option (List Bool × List Bool))
    (solveKey : AttackState → Option (List Bool))
    (hsolve : ∀ st k, solveKey st = some k → keyPassesTests design st k = true) :
    ∀ fuel (s : AttackState), keyPassesTests design s s.bestKey = true → s.keyFound = false →
      (∀ s2, runSatLoop oracle solveDI solveKey fuel s = Except.ok s2 →
        s2.keyFound = true → keyPassesTests design s2 s2.bestKey = true) ∧
      (∀ e, runSatLoop oracle solveDI solveKey fuel s = Except.error e →
        e = SatError.fuelExhausted) := by
  intro fuel
  induction fuel with
  | zero =>
      intro s hpass hkf
      constructor
      · intro s2 h
        rw [runSatLoop_zero] at h
        cases h
      · intro e h
        rw [runSatLoop_zero] at h
        injection h with h2
        exact h2.symm
  | succ fuel ih =>
      intro s hpass hkf
      cases hdi : solveDI s with
      | none =>
          constructor
          · intro s2 h _
            rw [runSatLoop_eq_none hdi] at h
            have hs2 : { s with keyFound := true } = s2 := (Except.ok.injEq _ _).mp h
            rw [← hs2]
            exact hpass
          · intro e h
            rw [runSatLoop_eq_none hdi] at h
            cases h
      | some pr =>
          obtain ⟨ci, ck⟩ := pr
          cases hsk : solveKey (addTestVector oracle s ci) with
          | none =>
              constructor
              · intro s2 h hfound
                rw [runSatLoop_eq_sat hdi, hsk] at h
                have hs2 : { addTestVector oracle s ci with bestKey := [] } = s2 :=
                  (Except.ok.injEq _ _).mp h
                rw [← hs2] at hfound
                simp only [addTestVector] at hfound
                rw [hkf] at hfound
                cases hfound
              · intro e h
                rw [runSatLoop_eq_sat hdi, hsk] at h
                cases h
          | some k =>
              have hinv : keyPassesTests design
                  { addTestVector oracle s ci with bestKey := k } k = true :=
                hsolve (addTestVector oracle s ci) k hsk
              have hrec := ih { addTestVector oracle s ci with bestKey := k } hinv hkf
              constructor
              · intro s2 h hfound
                rw [runSatLoop_eq_sat hdi, hsk] at h
                exact hrec.1 s2 h hfound
              · intro e h
                rw [runSatLoop_eq_sat hdi, hsk] at h
                exact hrec.2 e h

theorem runPrologue_spec (design : List Bool → List Bool → List Bool)
    (oracle : List Bool → List Bool) (randStream : Nat → List Bool)
    (solveKey : AttackState → Option (List Bool)) (expectedKey : List Bool)
    (n : Nat) (s : AttackState)
    (hsolve : ∀ st k, solveKey st = some k → keyPassesTests design st k = true) :
    runPrologue design oracle randStream solveKey expectedKey n s =
      Except.error SatError.expectedKeyFails ∨
    (∃ s1, runPrologue design oracle randStream solveKey expectedKey n s =
      Except.ok (false, s1) ∧ s1.keyFound = false) ∨
    (∃ s1, runPrologue design oracle randStream solveKey expectedKey n s =
      Except.ok (true, s1) ∧ s1.keyFound = false ∧
      keyPassesTests design s1 s1.bestKey = true) := by
  rw [runPrologue]
  by_cases hc : keyPassesTests design (genVectors oracle randStream n
      { s with testInputs := [], testOutputs := [] }) expectedKey = false
  · rw [if_pos hc]
    exact Or.inl rfl
  · rw [if_neg hc]
    cases hsk : solveKey { (genVectors oracle randStream n
        { s with testInputs := [], testOutputs := [] }) with
        keyFound := false, bestKey := [] } with
    | none =>
        simp only [hsk]
        exact Or.inr (Or.inl ⟨_, rfl, rfl⟩)
    | some k =>
        simp only [hsk]
        refine Or.inr (Or.inr ⟨_, rfl, rfl, ?_⟩)
        have h2 := hsolve _ k hsk
        exact h2

theorem runSat_eq_ok_true {design : List Bool → List Bool → List Bool}
    {oracle : List Bool → List Bool} {randStream : Nat → List Bool}
    {solveDI : AttackState → Option (List Bool × List Bool)}
    {solveKey : AttackState → Option (List Bool)} {expectedKey : List Bool}
    {n fuel : Nat} {s s1 : AttackState}
    (hok : runPrologue design oracle randStream solveKey expectedKey n s =
      Except.ok (true, s1)) :
    runSat design oracle randStream solveDI solveKey expectedKey n fuel s =
      (match runSatLoop oracle solveDI solveKey fuel s1 with
       | Except.error e => Except.error e
       | Except.ok s2 =>
           if s2.keyFound = true then
             if keyPassesTests design s2 s2.bestKey = true then Except.ok s2
             else Except.error SatError.postCheckFails
           else Except.ok s2) := by
  rw [runSat, hok]

/-- C2: whenever the exact attack terminates with `keyFound` true, the
returned best key is consistent with every accumulated test vector, so the
defensive post-success re-validation passes and the fatal
`postCheckFails` branch is never taken — assuming only that any key the
solver returns satisfies the constraints of `forceKeyCorrect`, i.e. passes
the test vectors it was solved against. -/
theorem runSat_success_key_passes
    (design : List Bool → List Bool → List Bool) (oracle : List Bool → List Bool)
    (randStream : Nat → List Bool)
    (solveDI : AttackState → Option (List Bool × List Bool))
    (solveKey : AttackState → Option (List Bool))
    (expectedKey : List Bool) (n fuel : Nat) (s : AttackState)
    (hsolve : ∀ st k, solveKey st = some k → keyPassesTests design st k = true) :
    runSat design oracle randStream solveDI solveKey expectedKey n fuel s ≠
      Except.error SatError.postCheckFails ∧
    (∀ s2, runSat design oracle randStream solveDI solveKey expectedKey n fuel s =
      Except.ok s2 → s2.keyFound = true → keyPassesTests design s2 s2.bestKey = true) := by
  rcases runPrologue_spec design oracle randStream solveKey expectedKey n s hsolve with
    hfail | ⟨s1, hok, hkf⟩ | ⟨s1, hok, hkf, hpass⟩
  · have hrs : runSat design oracle randStream solveDI solveKey expectedKey n fuel s =
        Except.error SatError.expectedKeyFails := by
      rw [runSat, hfail]
    rw [hrs]
    constructor
    · intro h
      injection h with h2
      cases h2
    · intro s2 h
      cases h
  · have hrs : runSat design oracle randStream solveDI solveKey expectedKey n fuel s =
        Except.ok s1 := by
      rw [runSat, hok]
    rw [hrs]
    constructor
    · intro h
      cases h
    · intro s2 h hfound
      have : s1 = s2 := (Except.ok.injEq _ _).mp h
      subst this
      rw [hkf] at hfound
      cases hfound
  · obtain ⟨hloop1, hloop2⟩ := runSatLoop_inv design oracle solveDI solveKey hsolve fuel s1
      hpass hkf
    cases hrun : runSatLoop oracle solveDI solveKey fuel s1 with
    | error e =>
        have he := hloop2 e hrun
        subst he
        have hrs : runSat design oracle randStream solveDI solveKey expectedKey n fuel s =
            Except.error SatError.fuelExhausted := by
          rw [runSat_eq_ok_true hok, hrun]
        rw [hrs]
        constructor
        · intro h
          injection h with h2
          cases h2
        · intro s2 h
          cases h
    | ok s2 =>
        by_cases hkf2 : s2.keyFound = true
        · have hpass2 := hloop1 s2 hrun hkf2
          have hrs : runSat design oracle randStream solveDI solveKey expectedKey n fuel s =
              Except.ok s2 := by
            rw [runSat_eq_ok_true hok, hrun]
            show (if s2.keyFound = true then
                if keyPassesTests design s2 s2.bestKey = true then Except.ok s2
                else Except.error SatError.postCheckFails
              else Except.ok s2) = Except.ok s2
            rw [if_pos hkf2, if_pos hpass2]
          rw [hrs]
          constructor
          · intro h
            cases h
          · intro s3 h _
            have : s2 = s3 := (Except.ok.injEq _ _).mp h
            subst this
            exact hpass2
        · have hrs : runSat design oracle randStream solveDI solveKey expectedKey n fuel s =
              Except.ok s2 := by
            rw [runSat_eq_ok_true hok, hrun]
            show (if s2.keyFound = true then
                if keyPassesTests design s2 s2.bestKey = true then Except.ok s2
                else Except.error SatError.postCheckFails
              else Except.ok s2) = Except.ok s2
            rw [if_neg hkf2]
          rw [hrs]
          constructor
          · intro h
            cases h
          · intro s3 h hfound
            have : s2 = s3 := (Except.ok.injEq _ _).mp h
            subst this
            exact absurd hfound hkf2

/-- Witness for C2: on a trivial design with a solver that only answers
with consistent keys, the exact attack succeeds without taking the fatal
branch. -/
theorem runSat_success_key_passes_witness :
    (∀ st k, (fun st => if keyPassesTests (fun _ _ => ([] : List Bool)) st [] = true
        then some ([] : List Bool) else none) st = some k →
      keyPassesTests (fun _ _ => ([] : List Bool)) st k = true) ∧
    (runSat (fun _ _ => ([] : List Bool)) (fun _ => ([] : List Bool)) (fun _ => ([] : List Bool))
        (fun _ => none)
        (fun st => if keyPassesTests (fun _ _ => ([] : List Bool)) st [] = true
          then some ([] : List Bool) else none)
        [] 0 1 ⟨[], [], [], false⟩ ≠ Except.error SatError.postCheckFails ∧
     (∀ s2, runSat (fun _ _ => ([] : List Bool)) (fun _ => ([] : List Bool))
        (fun _ => ([] : List Bool)) (fun _ => none)
        (fun st => if keyPassesTests (fun _ _ => ([] : List Bool)) st [] = true
          then some ([] : List Bool) else none)
        [] 0 1 ⟨[], [], [], false⟩ = Except.ok s2 → s2.keyFound = true →
        keyPassesTests (fun _ _ => ([] : List Bool)) s2 s2.bestKey = true)) :=
  have hs : ∀ st k, (fun st => if keyPassesTests (fun _ _ => ([] : List Bool)) st [] = true
      then some ([] : List Bool) else none) st = some k →
      keyPassesTests (fun _ _ => ([] : List Bool)) st k = true := by
    intro st k h
    have h2 : (if keyPassesTests (fun _ _ => ([] : List Bool)) st [] = true
        then some ([] : List Bool) else none) = some k := h
    by_cases hc : keyPassesTests (fun _ _ => ([] : List Bool)) st [] = true
    · rw [if_pos hc] at h2
      exact (Option.some.inj h2) ▸ hc
    · rw [if_neg hc] at h2
      exact Option.noConfusion h2
  ⟨hs, runSat_success_key_passes (fun _ _ => []) (fun _ => []) (fun _ => [])
    (fun _ => none)
    (fun st => if keyPassesTests (fun _ _ => ([] : List Bool)) st [] = true
      then some ([] : List Bool) else none)
    [] 0 1 ⟨[], [], [], false⟩ hs⟩

theorem measureLoop_spec (design : List Bool → List Bool → List Bool)
    (oracle : List Bool → List Bool) (bestKey : List Bool) (mc : Int) :
    ∀ (samples : List (List Bool)) (e : Int) (s : AttackState),
      (measureLoop design oracle bestKey mc samples e s).1 =
        e + ((mismatchList design oracle bestKey samples).length : Int) ∧
      (measureLoop design oracle bestKey mc samples e s).2.testInputs =
        s.testInputs ++ (mismatchList design oracle bestKey samples).take (mc - e).toNat ∧
      (measureLoop design oracle bestKey mc samples e s).2.testOutputs =
        s.testOutputs ++
          ((mismatchList design oracle bestKey samples).take (mc - e).toNat).map oracle ∧
      (measureLoop design oracle bestKey mc samples e s).2.bestKey = s.bestKey ∧
      (measureLoop design oracle bestKey mc samples e s).2.keyFound = s.keyFound := by
  intro samples
  induction samples with
  | nil =>
      intro e s
      refine ⟨by simp [measureLoop, mismatchList], ?_, ?_, rfl, rfl⟩ <;>
        simp [measureLoop, mismatchList]
  | cons v rest ih =>
      intro e s
      by_cases hm : design v bestKey ≠ oracle v
      · have hfil : mismatchList design oracle bestKey (v :: rest) =
            v :: mismatchList design oracle bestKey rest := by
          rw [mismatchList, List.filter_cons, if_pos (by simpa using hm)]
          rfl
        have hred : measureLoop design oracle bestKey mc (v :: rest) e s =
            measureLoop design oracle bestKey mc rest (e + 1)
              (if e + 1 ≤ mc then
                { s with testInputs := s.testInputs ++ [v],
                         testOutputs := s.testOutputs ++ [oracle v] }
               else s) := by
          rw [measureLoop, if_pos hm]
        rw [hred, hfil]
        by_cases hle : e + 1 ≤ mc
        · obtain ⟨i1, i2, i3, i4, i5⟩ := ih (e + 1)
            { s with testInputs := s.testInputs ++ [v],
                     testOutputs := s.testOutputs ++ [oracle v] }
          rw [if_pos hle]
          have htn : (mc - e).toNat = (mc - (e + 1)).toNat + 1 := by omega
          refine ⟨?_, ?_, ?_, i4, i5⟩
          · rw [i1]
            simp only [List.length_cons]
            push_cast
            ring
          · rw [i2, htn]
            simp [List.append_assoc]
          · rw [i3, htn]
            simp [List.append_assoc]
        · obtain ⟨i1, i2, i3, i4, i5⟩ := ih (e + 1) s
          rw [if_neg hle]
          have ht0 : (mc - e).toNat = 0 := by omega
          have ht1 : (mc - (e + 1)).toNat = 0 := by omega
          refine ⟨?_, ?_, ?_, i4, i5⟩
          · rw [i1]
            simp only [List.length_cons]
            push_cast
            ring
          · rw [i2, ht0, ht1]
            simp
          · rw [i3, ht0, ht1]
            simp
      · have hfil : mismatchList design oracle bestKey (v :: rest) =
            mismatchList design oracle bestKey rest := by
          rw [mismatchList, List.filter_cons, if_neg (by simpa using hm)]
          rfl
        have hred : measureLoop design oracle bestKey mc (v :: rest) e s =
            measureLoop design oracle bestKey mc rest e s := by
          rw [measureLoop, if_neg hm]
        rw [hred, hfil]
        exact ih e s

/-- C4: one measurement round appends exactly
`min (number of mismatching samples) maxConstraints` new test vectors —
each a sampled input paired with its oracle output, in sampling order —
leaves the best key untouched, and returns the mismatch count divided by
`nbRandomVectors` (zero when `nbRandomVectors <= 0`); with
`maxConstraints` set to the current store size, as `runAppSat` does, the
store at most doubles. -/
theorem measureErrorAndConstrain_spec (design : List Bool → List Bool → List Bool)
    (oracle : List Bool → List Bool) (rand : Nat → List Bool)
    (s : AttackState) (n mc : Int) (hmc : 0 ≤ mc) :
    (measureErrorAndConstrain design oracle rand s n mc).2.testInputs =
      s.testInputs ++
        (mismatchList design oracle s.bestKey ((List.range n.toNat).map rand)).take mc.toNat ∧
    (measureErrorAndConstrain design oracle rand s n mc).2.testOutputs =
      s.testOutputs ++
        ((mismatchList design oracle s.bestKey
          ((List.range n.toNat).map rand)).take mc.toNat).map oracle ∧
    (measureErrorAndConstrain design oracle rand s n mc).2.bestKey = s.bestKey ∧
    (measureErrorAndConstrain design oracle rand s n mc).2.keyFound = s.keyFound ∧
    (measureErrorAndConstrain design oracle rand s n mc).1 =
      (if n ≤ 0 then 0 else
        ((mismatchList design oracle s.bestKey ((List.range n.toNat).map rand)).length : ℚ) /
          (n : ℚ)) ∧
    (measureErrorAndConstrain design oracle rand s n mc).2.testInputs.length =
      s.testInputs.length +
        min (mismatchList design oracle s.bestKey ((List.range n.toNat).map rand)).length
          mc.toNat ∧
    (mc = (s.testInputs.length : Int) →
      (measureErrorAndConstrain design oracle rand s n mc).2.testInputs.length ≤
        2 * s.testInputs.length) := by
  obtain ⟨l1, l2, l3, l4, l5⟩ := measureLoop_spec design oracle s.bestKey mc
    ((List.range n.toNat).map rand) 0 s
  have hr2 : (measureErrorAndConstrain design oracle rand s n mc).2 =
      (measureLoop design oracle s.bestKey mc ((List.range n.toNat).map rand) 0 s).2 := rfl
  have hr1 : (measureErrorAndConstrain design oracle rand s n mc).1 =
      (if n ≤ 0 then 0 else
        ((measureLoop design oracle s.bestKey mc
          ((List.range n.toNat).map rand) 0 s).1 : ℚ) / (n : ℚ)) := rfl
  have htn : (mc - 0).toNat = mc.toNat := by omega
  rw [htn] at l2 l3
  have hlen : (measureErrorAndConstrain design oracle rand s n mc).2.testInputs.length =
      s.testInputs.length +
        min (mismatchList design oracle s.bestKey ((List.range n.toNat).map rand)).length
          mc.toNat := by
    rw [hr2, l2]
    simp [List.length_take, Nat.min_comm]
  refine ⟨by rw [hr2, l2], by rw [hr2, l3], by rw [hr2, l4], by rw [hr2, l5], ?_, hlen, ?_⟩
  · rw [hr1, l1]
    by_cases hn : n ≤ 0
    · rw [if_pos hn, if_pos hn]
    · rw [if_neg hn, if_neg hn]
      push_cast
      ring_nf
  · intro hmceq
    rw [hlen]
    have : mc.toNat = s.testInputs.length := by omega
    omega

/-- Witness for C4: two samples, one mismatching, store cap 1. -/
theorem measureErrorAndConstrain_spec_witness :
    ((0 : Int) ≤ 1) ∧
    ((measureErrorAndConstrain (fun _ _ => [true]) (fun v => v) (fun _ => [false])
        ⟨[], [], [], false⟩ 2 1).2.testInputs =
      ([] : List (List Bool)) ++
        (mismatchList (fun _ _ => [true]) (fun v => v) []
          ((List.range (2 : Int).toNat).map (fun _ => [false]))).take (1 : Int).toNat ∧
     (measureErrorAndConstrain (fun _ _ => [true]) (fun v => v) (fun _ => [false])
        ⟨[], [], [], false⟩ 2 1).2.testOutputs =
      ([] : List (List Bool)) ++
        ((mismatchList (fun _ _ => [true]) (fun v => v) []
          ((List.range (2 : Int).toNat).map (fun _ => [false]))).take (1 : Int).toNat).map
          (fun v => v) ∧
     (measureErrorAndConstrain (fun _ _ => [true]) (fun v => v) (fun _ => [false])
        ⟨[], [], [], false⟩ 2 1).2.bestKey = [] ∧
     (measureErrorAndConstrain (fun _ _ => [true]) (fun v => v) (fun _ => [false])
        ⟨[], [], [], false⟩ 2 1).2.keyFound = false ∧
     (measureErrorAndConstrain (fun _ _ => [true]) (fun v => v) (fun _ => [false])
        ⟨[], [], [], false⟩ 2 1).1 =
      (if (2 : Int) ≤ 0 then 0 else
        ((mismatchList (fun _ _ => [true]) (fun v => v) []
          ((List.range (2 : Int).toNat).map (fun _ => [false]))).length : ℚ) / ((2 : Int) : ℚ)) ∧
     (measureErrorAndConstrain (fun _ _ => [true]) (fun v => v) (fun _ => [false])
        ⟨[], [], [], false⟩ 2 1).2.testInputs.length =
      ([] : List (List Bool)).length +
        min (mismatchList (fun _ _ => [true]) (fun v => v) []
          ((List.range (2 : Int).toNat).map (fun _ => [false]))).length (1 : Int).toNat ∧
     ((1 : Int) = (([] : List (List Bool)).length : Int) →
      (measureErrorAndConstrain (fun _ _ => [true]) (fun v => v) (fun _ => [false])
        ⟨[], [], [], false⟩ 2 1).2.testInputs.length ≤
        2 * ([] : List (List Bool)).length)) :=
  ⟨by decide,
   measureErrorAndConstrain_spec (fun _ _ => [true]) (fun v => v) (fun _ => [false])
     ⟨[], [], [], false⟩ 2 1 (by decide)⟩

/-- C6 counterexample: an expected key one bit longer than the key port is
accepted — the constructor truncates it and proceeds, with no error and no
warning, although its length differs from the port width. -/
theorem satAttackCtor_accepts_longer_key :
    (List.replicate 3 false).length ≠ 2 ∧
    satAttackCtor (some 2) (List.replicate 3 false) =
      Except.ok { nbKeyBits := 2, expectedKey := List.replicate 2 false,
                  longKeyWarning := false } := by
  constructor
  · decide
  · rfl

/-- C6 amended: constructing the attack with a missing key port, or with an
expected key strictly shorter than the key-port width, reports the
configuration error immediately and aborts; a key at least as long as the
port is accepted and truncated to the port width, with only a warning (no
abort) when it is longer by four or more bits. -/
theorem satAttackCtor_amended (key : List Bool) :
    satAttackCtor none key = Except.error CtorError.missingKeyPort ∧
    (∀ w : Nat, key.length < w →
      satAttackCtor (some w) key = Except.error CtorError.keyTooShort) ∧
    (∀ w : Nat, w ≤ key.length →
      satAttackCtor (some w) key =
        Except.ok { nbKeyBits := w, expectedKey := key.take w,
                    longKeyWarning := decide (w + 4 ≤ key.length) }) := by
  have h1 : ∀ w : Nat, satAttackCtor (some w) key =
      if key.length < w then Except.error CtorError.keyTooShort
      else Except.ok { nbKeyBits := w,
                       expectedKey := key.take w ++ List.replicate (w - key.length) false,
                       longKeyWarning := decide (w + 4 ≤ key.length) } := fun _ => rfl
  refine ⟨rfl, ?_, ?_⟩
  · intro w hw
    rw [h1 w, if_pos hw]
  · intro w hw
    rw [h1 w, if_neg (by omega)]
    have h0 : w - key.length = 0 := by omega
    rw [h0]
    simp

theorem belowStreak_append (thr : ℚ) (l : List (Int × ℚ)) (q : Int) (e : ℚ) :
    belowStreak thr (l ++ [(q, e)]) = if e < thr then belowStreak thr l + 1 else 0 := by
  rw [belowStreak, List.foldl_append]
  rfl

theorem take_append_le {α : Type} (l₁ l₂ : List α) (m : Nat) (h : m ≤ l₁.length) :
    (l₁ ++ l₂).take m = l₁.take m := by
  induction l₁ generalizing m with
  | nil =>
      have : m = 0 := by simpa using h
      subst this
      simp
  | cons a t ih =>
      cases m with
      | zero => simp
      | succ m' =>
          simp only [List.cons_append, List.take_succ_cons]
          rw [ih m' (by simpa using h)]

theorem take_all_of_ge {α : Type} (l : List α) (m : Nat) (h : l.length ≤ m) :
    l.take m = l := by
  induction l generalizing m with
  | nil => simp
  | cons a t ih =>
      cases m with
      | zero => simp at h
      | succ m' =>
          simp only [List.take_succ_cons]
          rw [ih m' (by simpa using h)]

theorem runAppSatLoop_zero (design : List Bool → List Bool → List Bool)
    (oracle : List Bool → List Bool)
    (findDI : AttackState → Option (List Bool × List Bool × List Bool))
    (rand : Nat → Nat → List Bool) (thr : ℚ) (n v S : Int)
    (st : AppSatState) (log : List (Int × ℚ)) :
    runAppSatLoop design oracle findDI rand thr n v S 0 st log = .fuelExhausted := rfl

theorem runAppSatLoop_none {design : List Bool → List Bool → List Bool}
    {oracle : List Bool → List Bool}
    {findDI : AttackState → Option (List Bool × List Bool × List Bool)}
    {rand : Nat → Nat → List Bool} {thr : ℚ} {n v S : Int} {fuel : Nat}
    {st : AppSatState} {log : List (Int × ℚ)}
    (hdi : findDI st.attack = none) :
    runAppSatLoop design oracle findDI rand thr n v S (fuel + 1) st log =
      AppSatResult.unsatExit { st.attack with keyFound := true } log := by
  rw [runAppSatLoop, hdi]

theorem runAppSatLoop_step {design : List Bool → List Bool → List Bool}
    {oracle : List Bool → List Bool}
    {findDI : AttackState → Option (List Bool × List Bool × List Bool)}
    {rand : Nat → Nat → List Bool} {thr : ℚ} {n v S : Int} {fuel : Nat}
    {st : AppSatState} {log : List (Int × ℚ)}
    {inputs key1 key2 : List Bool} {r : ℚ × AttackState}
    (hdi : findDI st.attack = some (inputs, key1, key2))
    (hr : measureErrorAndConstrain design oracle (rand log.length)
        (addTestVector oracle { st.attack with bestKey := key1 } inputs) v
        ((addTestVector oracle { st.attack with bestKey := key1 } inputs).testInputs.length :
          Int) = r) :
    runAppSatLoop design oracle findDI rand thr n v S (fuel + 1) st log =
      if (st.queryCount + 1) % n ≠ 0 then
        runAppSatLoop design oracle findDI rand thr n v S fuel
          { attack := addTestVector oracle { st.attack with bestKey := key1 } inputs,
            queryCount := st.queryCount + 1, settleCount := st.settleCount } log
      else if r.1 < thr then
        if S ≤ st.settleCount + 1 then
          AppSatResult.measurementExit { r.2 with keyFound := true }
            (log ++ [(st.queryCount + 1, r.1)])
        else
          runAppSatLoop design oracle findDI rand thr n v S fuel
            { attack := r.2, queryCount := st.queryCount + 1,
              settleCount := st.settleCount + 1 } (log ++ [(st.queryCount + 1, r.1)])
      else
        runAppSatLoop design oracle findDI rand thr n v S fuel
          { attack := r.2, queryCount := st.queryCount + 1, settleCount := 0 }
          (log ++ [(st.queryCount + 1, r.1)]) := by
  subst hr
  rw [runAppSatLoop, hdi]

theorem runAppSatLoop_spec (design : List Bool → List Bool → List Bool)
    (oracle : List Bool → List Bool)
    (findDI : AttackState → Option (List Bool × List Bool × List Bool))
    (rand : Nat → Nat → List Bool) (thr : ℚ) (n v S : Int)
    (hn : 0 < n) (hS : 1 ≤ S) :
    ∀ (fuel : Nat) (st : AppSatState) (log : List (Int × ℚ)),
      st.settleCount = ((belowStreak thr log : Nat) : Int) →
      (∀ m, m ≤ log.length → ((belowStreak thr (log.take m) : Nat) : Int) < S) →
      n * (log.length : Int) ≤ st.queryCount →
      st.queryCount < n * ((log.length : Int) + 1) →
      (∀ i, i < log.length → (log.getD i (0, 0)).1 = n * ((i : Int) + 1)) →
      ∀ final log',
        runAppSatLoop design oracle findDI rand thr n v S fuel st log =
          AppSatResult.measurementExit final log' →
        final.keyFound = true ∧
        ((belowStreak thr log' : Nat) : Int) = S ∧
        (∀ m, m < log'.length → ((belowStreak thr (log'.take m) : Nat) : Int) < S) ∧
        (∀ i, i < log'.length → (log'.getD i (0, 0)).1 = n * ((i : Int) + 1)) := by
  intro fuel
  induction fuel with
  | zero =>
      intro st log _ _ _ _ _ final log' h
      rw [runAppSatLoop_zero] at h
      exact AppSatResult.noConfusion h
  | succ fuel ih =>
      intro st log I1 I2 I3a I3b I4 final log' h
      cases hdi : findDI st.attack with
      | none =>
          rw [runAppSatLoop_none hdi] at h
          exact AppSatResult.noConfusion h
      | some tri =>
          obtain ⟨inputs, key1, key2⟩ := tri
          have hex : ∃ r, measureErrorAndConstrain design oracle (rand log.length)
              (addTestVector oracle { st.attack with bestKey := key1 } inputs) v
              ((addTestVector oracle
                { st.attack with bestKey := key1 } inputs).testInputs.length : Int) = r :=
            ⟨_, rfl⟩
          obtain ⟨R, hR⟩ := hex
          rw [runAppSatLoop_step hdi hR] at h
          by_cases hq : (st.queryCount + 1) % n ≠ 0
          · rw [if_pos hq] at h
            have hle : st.queryCount + 1 ≤ n * ((log.length : Int) + 1) := by omega
            have hlt : st.queryCount + 1 < n * ((log.length : Int) + 1) := by
              rcases lt_or_eq_of_le hle with h' | h'
              · exact h'
              · exact absurd (by rw [h']; exact Int.mul_emod_right _ _) hq
            exact ih { attack := addTestVector oracle { st.attack with bestKey := key1 } inputs,
                       queryCount := st.queryCount + 1, settleCount := st.settleCount }
              log I1 I2 (by show n * (log.length : Int) ≤ st.queryCount + 1; omega)
              hlt I4 final log' h
          · rw [if_neg hq] at h
            have hq0 : (st.queryCount + 1) % n = 0 := not_not.mp hq
            obtain ⟨k, hk⟩ : n ∣ (st.queryCount + 1) := Int.dvd_of_emod_eq_zero hq0
            have hkgt : (log.length : Int) < k := by
              by_contra hcon
              push_neg at hcon
              have hmm : n * k ≤ n * (log.length : Int) :=
                mul_le_mul_of_nonneg_left hcon (le_of_lt hn)
              linarith [I3a, hk, hmm]
            have hkle : k ≤ (log.length : Int) + 1 := by
              by_contra hcon
              push_neg at hcon
              have hmm : n * ((log.length : Int) + 1) < n * k :=
                mul_lt_mul_of_pos_left hcon hn
              have h3 : n * ((log.length : Int) + 1) ≤ st.queryCount :=
                Int.lt_add_one_iff.mp (by linarith [hk])
              linarith [I3b]
            have hkeq : k = (log.length : Int) + 1 :=
              le_antisymm hkle (Int.add_one_le_iff.mpr hkgt)
            have hq1 : st.queryCount + 1 = n * ((log.length : Int) + 1) := by
              rw [hk, hkeq]
            have hlen1 : (log ++ [(st.queryCount + 1, R.1)]).length = log.length + 1 := by
              simp
            have htakem : ∀ m, m ≤ log.length →
                (log ++ [(st.queryCount + 1, R.1)]).take m = log.take m := fun m hm =>
              take_append_le _ _ m hm
            have hI4' : ∀ i, i < (log ++ [(st.queryCount + 1, R.1)]).length →
                ((log ++ [(st.queryCount + 1, R.1)]).getD i (0, 0)).1 =
                  n * ((i : Int) + 1) := by
              intro i hi
              rw [hlen1] at hi
              rcases Nat.lt_or_ge i log.length with hilt | hige
              · rw [getD_append_lt _ _ _ _ hilt]
                exact I4 i hilt
              · have hieq : i = log.length := by omega
                subst hieq
                rw [getD_append_len]
                exact hq1
            by_cases hlt : R.1 < thr
            · rw [if_pos hlt] at h
              have hstreak1 : belowStreak thr (log ++ [(st.queryCount + 1, R.1)]) =
                  belowStreak thr log + 1 := by
                rw [belowStreak_append, if_pos hlt]
              by_cases hs2 : S ≤ st.settleCount + 1
              · rw [if_pos hs2] at h
                injection h with hf hl
                subst hf
                subst hl
                have hself : ((belowStreak thr log : Nat) : Int) < S := by
                  have := I2 log.length (le_refl _)
                  rwa [take_all_of_ge _ _ (le_refl _)] at this
                refine ⟨rfl, ?_, ?_, hI4'⟩
                · rw [hstreak1]
                  push_cast
                  omega
                · intro m hm
                  rw [hlen1] at hm
                  rw [htakem m (by omega)]
                  exact I2 m (by omega)
              · rw [if_neg hs2] at h
                refine ih _ _ ?_ ?_ ?_ ?_ hI4' final log' h
                · show st.settleCount + 1 =
                    ((belowStreak thr (log ++ [(st.queryCount + 1, R.1)]) : Nat) : Int)
                  rw [hstreak1]
                  push_cast
                  omega
                · intro m hm
                  rw [hlen1] at hm
                  rcases Nat.lt_or_ge m (log.length + 1) with hmlt | hmge
                  · rw [htakem m (by omega)]
                    exact I2 m (by omega)
                  · have hmeq : m = log.length + 1 := by omega
                    subst hmeq
                    rw [take_all_of_ge _ _ (by rw [hlen1]), hstreak1]
                    have hself : ((belowStreak thr log : Nat) : Int) < S := by
                      have := I2 log.length (le_refl _)
                      rwa [take_all_of_ge _ _ (le_refl _)] at this
                    push_cast
                    omega
                · show n * (((log ++ [(st.queryCount + 1, R.1)]).length : Nat) : Int) ≤
                    st.queryCount + 1
                  rw [hlen1, hq1]
                  push_cast
                  omega
                · show st.queryCount + 1 <
                    n * ((((log ++ [(st.queryCount + 1, R.1)]).length : Nat) : Int) + 1)
                  rw [hlen1, hq1]
                  have : ((log.length : Int) + 1) < ((log.length : Int) + 1 + 1) := by omega
                  have h4 := mul_lt_mul_of_pos_left this hn
                  push_cast
                  linarith [h4]
            · rw [if_neg hlt] at h
              have hstreak0 : belowStreak thr (log ++ [(st.queryCount + 1, R.1)]) = 0 := by
                rw [belowStreak_append, if_neg hlt]
              refine ih _ _ ?_ ?_ ?_ ?_ hI4' final log' h
              · show (0 : Int) =
                  ((belowStreak thr (log ++ [(st.queryCount + 1, R.1)]) : Nat) : Int)
                rw [hstreak0]
                simp
              · intro m hm
                rw [hlen1] at hm
                rcases Nat.lt_or_ge m (log.length + 1) with hmlt | hmge
                · rw [htakem m (by omega)]
                  exact I2 m (by omega)
                · have hmeq : m = log.length + 1 := by omega
                  subst hmeq
                  rw [take_all_of_ge _ _ (by rw [hlen1]), hstreak0]
                  simpa using hS
              · show n * (((log ++ [(st.queryCount + 1, R.1)]).length : Nat) : Int) ≤
                  st.queryCount + 1
                rw [hlen1, hq1]
                push_cast
                omega
              · show st.queryCount + 1 <
                  n * ((((log ++ [(st.queryCount + 1, R.1)]).length : Nat) : Int) + 1)
                rw [hlen1, hq1]
                have : ((log.length : Int) + 1) < ((log.length : Int) + 1 + 1) := by omega
                have h4 := mul_lt_mul_of_pos_left this hn
                push_cast
                linarith [h4]

theorem runAppSat_err {design : List Bool → List Bool → List Bool}
    {oracle : List Bool → List Bool} {randStream : Nat → List Bool}
    {findDI : AttackState → Option (List Bool × List Bool × List Bool)}
    {solveKey : AttackState → Option (List Bool)} {rand : Nat → Nat → List Bool}
    {errorThreshold : ℚ} {expectedKey : List Bool} {nbInitialVectors : Nat}
    {nbDIQueries nbRandomVectors settleThreshold : Int} {fuel : Nat} {s : AttackState}
    {e : SatError}
    (hp : runPrologue design oracle randStream solveKey expectedKey nbInitialVectors s =
      Except.error e) :
    runAppSat design oracle randStream findDI solveKey rand errorThreshold expectedKey
      nbInitialVectors nbDIQueries nbRandomVectors settleThreshold fuel s =
      Except.error e := by
  rw [runAppSat, hp]

theorem runAppSat_ok_false {design : List Bool → List Bool → List Bool}
    {oracle : List Bool → List Bool} {randStream : Nat → List Bool}
    {findDI : AttackState → Option (List Bool × List Bool × List Bool)}
    {solveKey : AttackState → Option (List Bool)} {rand : Nat → Nat → List Bool}
    {errorThreshold : ℚ} {expectedKey : List Bool} {nbInitialVectors : Nat}
    {nbDIQueries nbRandomVectors settleThreshold : Int} {fuel : Nat} {s s1 : AttackState}
    (hp : runPrologue design oracle randStream solveKey expectedKey nbInitialVectors s =
      Except.ok (false, s1)) :
    runAppSat design oracle randStream findDI solveKey rand errorThreshold expectedKey
      nbInitialVectors nbDIQueries nbRandomVectors settleThreshold fuel s =
      Except.ok AppSatResult.fuelExhausted := by
  rw [runAppSat, hp]

theorem runAppSat_ok_true {design : List Bool → List Bool → List Bool}
    {oracle : List Bool → List Bool} {randStream : Nat → List Bool}
    {findDI : AttackState → Option (List Bool × List Bool × List Bool)}
    {solveKey : AttackState → Option (List Bool)} {rand : Nat → Nat → List Bool}
    {errorThreshold : ℚ} {expectedKey : List Bool} {nbInitialVectors : Nat}
    {nbDIQueries nbRandomVectors settleThreshold : Int} {fuel : Nat} {s s1 : AttackState}
    (hp : runPrologue design oracle randStream solveKey expectedKey nbInitialVectors s =
      Except.ok (true, s1)) :
    runAppSat design oracle randStream findDI solveKey rand errorThreshold expectedKey
      nbInitialVectors nbDIQueries nbRandomVectors settleThreshold fuel s =
      Except.ok (runAppSatLoop design oracle findDI rand errorThreshold nbDIQueries
        nbRandomVectors settleThreshold fuel
        { attack := s1, queryCount := 0, settleCount := 0 } []) := by
  rw [runAppSat, hp]

/-- C3: when `runAppSat` succeeds through the error-measurement path, the
measurement log ends with exactly `settleThreshold` consecutive rounds
whose measured error is strictly below `errorThreshold` (the streak length
— whose counter resets to zero on every round at or above the threshold —
equals `settleThreshold` at exit and was strictly smaller after every
earlier round), and every measurement happens exactly every `nbDIQueries`
DI rounds: the i-th logged round is at query count `nbDIQueries * (i+1)`. -/
theorem runAppSat_measurement_convergence (design : List Bool → List Bool → List Bool)
    (oracle : List Bool → List Bool) (randStream : Nat → List Bool)
    (findDI : AttackState → Option (List Bool × List Bool × List Bool))
    (solveKey : AttackState → Option (List Bool)) (rand : Nat → Nat → List Bool)
    (errorThreshold : ℚ) (expectedKey : List Bool) (nbInitialVectors : Nat)
    (nbDIQueries nbRandomVectors settleThreshold : Int) (fuel : Nat) (s : AttackState)
    (final : AttackState) (log : List (Int × ℚ))
    (hn : 0 < nbDIQueries) (hS : 1 ≤ settleThreshold)
    (h : runAppSat design oracle randStream findDI solveKey rand errorThreshold expectedKey
      nbInitialVectors nbDIQueries nbRandomVectors settleThreshold fuel s =
      Except.ok (AppSatResult.measurementExit final log)) :
    final.keyFound = true ∧
    ((belowStreak errorThreshold log : Nat) : Int) = settleThreshold ∧
    (∀ m, m < log.length →
      ((belowStreak errorThreshold (log.take m) : Nat) : Int) < settleThreshold) ∧
    (∀ i, i < log.length → (log.getD i (0, 0)).1 = nbDIQueries * ((i : Int) + 1)) := by
  cases hp : runPrologue design oracle randStream solveKey expectedKey nbInitialVectors s with
  | error e =>
      rw [runAppSat_err hp] at h
      exact Except.noConfusion h
  | ok p =>
      obtain ⟨b, s1⟩ := p
      cases b with
      | false =>
          rw [runAppSat_ok_false hp] at h
          injection h with h2
          exact AppSatResult.noConfusion h2
      | true =>
          rw [runAppSat_ok_true hp] at h
          injection h with h2
          refine runAppSatLoop_spec design oracle findDI rand errorThreshold nbDIQueries
            nbRandomVectors settleThreshold hn hS fuel
            { attack := s1, queryCount := 0, settleCount := 0 } [] ?_ ?_ ?_ ?_ ?_
            final log h2
          · simp [belowStreak]
          · intro m hm
            have hm0 : m = 0 := by simpa using hm
            subst hm0
            simp only [List.take_nil]
            simp [belowStreak]
            omega
          · simp
          · simpa using hn
          · intro i hi
            simp at hi

/-- Witness for C3: a one-round run that measures error 0 (below the
threshold 1) immediately and exits at streak 1 = settleThreshold. -/
theorem runAppSat_measurement_convergence_witness :
    ((0 : Int) < 1 ∧ (1 : Int) ≤ 1 ∧
     runAppSat (fun _ _ => ([] : List Bool)) (fun _ => ([] : List Bool))
       (fun _ => ([] : List Bool)) (fun _ => some ([], [], []))
       (fun _ => some ([] : List Bool)) (fun _ _ => ([] : List Bool))
       (1 : ℚ) ([] : List Bool) 0 1 0 1 1 ⟨[], [], [], false⟩ =
       Except.ok (AppSatResult.measurementExit ⟨[[]], [[]], [], true⟩ [(1, 0)])) ∧
    ((⟨[[]], [[]], [], true⟩ : AttackState).keyFound = true ∧
     ((belowStreak (1 : ℚ) [(1, 0)] : Nat) : Int) = 1 ∧
     (∀ m, m < ([(1, 0)] : List (Int × ℚ)).length →
       ((belowStreak (1 : ℚ) (([(1, 0)] : List (Int × ℚ)).take m) : Nat) : Int) < 1) ∧
     (∀ i, i < ([(1, 0)] : List (Int × ℚ)).length →
       (([(1, 0)] : List (Int × ℚ)).getD i (0, 0)).1 = 1 * ((i : Int) + 1))) :=
  ⟨⟨by decide, by decide, by rfl⟩,
   runAppSat_measurement_convergence (fun _ _ => ([] : List Bool)) (fun _ => ([] : List Bool))
     (fun _ => ([] : List Bool)) (fun _ => some ([], [], []))
     (fun _ => some ([] : List Bool)) (fun _ _ => ([] : List Bool))
     (1 : ℚ) ([] : List Bool) 0 1 0 1 1 ⟨[], [], [], false⟩
     ⟨[[]], [[]], [], true⟩ [(1, 0)] (by decide) (by decide) (by rfl)⟩

theorem toAigInputs_length (ci : List CombInput) :
    ∀ inputs key : List Bool, (toAigInputs ci inputs key).length = ci.length := by
  induction ci with
  | nil => intro inputs key; rfl
  | cons c rest ih =>
      intro inputs key
      cases c with
      | keyBit off => simp [toAigInputs, ih]
      | primary => simp [toAigInputs, ih]

theorem simulate_out_det (g₁ g₂ : MiniAIG) (vals : List Nat)
    (hn : g₁.nodes = g₂.nodes) (ho : g₁.outputs = g₂.outputs)
    (hi : g₁.nbInputs = g₂.nbInputs)
    (hl₁ : g₁.state.length = g₁.nbInputs + g₁.nodes.length + 1)
    (hl₂ : g₂.state.length = g₂.nbInputs + g₂.nodes.length + 1)
    (htopo : TopoOk g₁.nbInputs g₁.nodes)
    (hvals : vals.length = g₁.nbInputs) :
    (g₁.simulate vals).1 = (g₂.simulate vals).1 := by
  obtain ⟨L₁, Z₁, I₁, N₁⟩ := simulate_state_spec g₁ vals hl₁ hvals htopo
  obtain ⟨L₂, Z₂, I₂, N₂⟩ := simulate_state_spec g₂ vals hl₂ (by rw [← hi]; exact hvals)
    (by rw [← hn, ← hi]; exact htopo)
  have hstate : (g₁.simulate vals).2.state = (g₂.simulate vals).2.state := by
    refine eq_of_getD 0 (by rw [L₁, L₂, hn, hi]) ?_
    rw [L₁]
    refine stateUnique g₁.nbInputs g₁.nodes (fun _ => 0) _ _ htopo (Z₁.trans Z₂.symm) ?_ ?_ ?_
    · intro i hij
      rw [I₁ i hij, I₂ i (by omega)]
    · intro j hj
      rw [Nat.zero_xor]
      exact N₁ j hj
    · intro j hj
      rw [Nat.zero_xor, hn, hi]
      exact N₂ j (by rw [← hn]; exact hj)
  have e₁ : (g₁.simulate vals).1 =
      Moosic.getOutputValues (g₁.simulate vals).2.state g₁.outputs := rfl
  have e₂ : (g₂.simulate vals).1 =
      Moosic.getOutputValues (g₂.simulate vals).2.state g₂.outputs := rfl
  rw [e₁, e₂, hstate, ho]

/-- C9: `callDesign` is a pure function of its (inputs, key) arguments —
its result does not depend on the residual simulation state left in the
AIG by earlier calls: two structurally equal AIGs with possibly different
state contents return identical output vectors for identical arguments;
and `callOracle inputs` is exactly `callDesign inputs expectedKey`. -/
theorem callDesign_pure (g₁ g₂ : MiniAIG) (ci : List CombInput)
    (inputs key expectedKey : List Bool)
    (hn : g₁.nodes = g₂.nodes) (ho : g₁.outputs = g₂.outputs)
    (hi : g₁.nbInputs = g₂.nbInputs)
    (hl₁ : g₁.state.length = g₁.nbInputs + g₁.nodes.length + 1)
    (hl₂ : g₂.state.length = g₂.nbInputs + g₂.nodes.length + 1)
    (htopo : TopoOk g₁.nbInputs g₁.nodes)
    (hci : ci.length = g₁.nbInputs) :
    (callDesign g₁ ci inputs key).1 = (callDesign g₂ ci inputs key).1 ∧
    (∀ inp₂ : List Bool, callOracle g₁ ci expectedKey inp₂ =
      callDesign g₁ ci inp₂ expectedKey) := by
  constructor
  · have hsim := simulate_out_det g₁ g₂
      ((toAigInputs ci inputs key).map fun b => if b then ones64 else 0)
      hn ho hi hl₁ hl₂ htopo (by rw [List.length_map, toAigInputs_length]; exact hci)
    show ((g₁.simulate ((toAigInputs ci inputs key).map
        fun b => if b then ones64 else 0)).1.map fun w => decide (w ≠ 0)) =
      ((g₂.simulate ((toAigInputs ci inputs key).map
        fun b => if b then ones64 else 0)).1.map fun w => decide (w ≠ 0))
    rw [hsim]
  · intro inp₂
    rfl

/-- Witness for C9: the example AIG against a copy of it holding stale
state words. -/
theorem callDesign_pure_witness :
    (exG0.nodes = ({ exG0 with state := [1, 2, 3, 4, 5, 6, 7] } : MiniAIG).nodes ∧
     exG0.outputs = ({ exG0 with state := [1, 2, 3, 4, 5, 6, 7] } : MiniAIG).outputs ∧
     exG0.nbInputs = ({ exG0 with state := [1, 2, 3, 4, 5, 6, 7] } : MiniAIG).nbInputs ∧
     exG0.state.length = exG0.nbInputs + exG0.nodes.length + 1 ∧
     ({ exG0 with state := [1, 2, 3, 4, 5, 6, 7] } : MiniAIG).state.length =
       ({ exG0 with state := [1, 2, 3, 4, 5, 6, 7] } : MiniAIG).nbInputs +
         ({ exG0 with state := [1, 2, 3, 4, 5, 6, 7] } : MiniAIG).nodes.length + 1 ∧
     TopoOk exG0.nbInputs exG0.nodes ∧
     ([CombInput.primary, CombInput.keyBit 0] : List CombInput).length = exG0.nbInputs) ∧
    ((callDesign exG0 [CombInput.primary, CombInput.keyBit 0] [true] [false]).1 =
      (callDesign ({ exG0 with state := [1, 2, 3, 4, 5, 6, 7] } : MiniAIG)
        [CombInput.primary, CombInput.keyBit 0] [true] [false]).1 ∧
     (∀ inp₂ : List Bool,
       callOracle exG0 [CombInput.primary, CombInput.keyBit 0] [true, true] inp₂ =
         callDesign exG0 [CombInput.primary, CombInput.keyBit 0] inp₂ [true, true])) :=
  ⟨⟨by decide, by decide, by decide, by decide, by decide, by decide, by decide⟩,
   callDesign_pure exG0 ({ exG0 with state := [1, 2, 3, 4, 5, 6, 7] } : MiniAIG)
     [CombInput.primary, CombInput.keyBit 0] [true] [false] [true, true]
     (by decide) (by decide) (by decide) (by decide) (by decide) (by decide) (by decide)⟩

/-- Witness for C6: the amended behaviour at width 2 for a 3-bit key and
at width 5 for the same key. -/
theorem satAttackCtor_amended_witness :
    ((3 : Nat) < 5 ∧ (2 : Nat) ≤ 3) ∧
    (satAttackCtor (some 5) (List.replicate 3 false) = Except.error CtorError.keyTooShort ∧
     satAttackCtor (some 2) (List.replicate 3 false) =
       Except.ok { nbKeyBits := 2, expectedKey := (List.replicate 3 false).take 2,
                   longKeyWarning := decide (2 + 4 ≤ (List.replicate 3 false).length) }) :=
  ⟨⟨by decide, by decide⟩,
   ⟨(satAttackCtor_amended (List.replicate 3 false)).2.1 5 (by decide),
    (satAttackCtor_amended (List.replicate 3 false)).2.2 2 (by decide)⟩⟩

end Moosic
